import Mathlib

set_option maxRecDepth 4000

/-!
Verification development for the Base64 codec of
`src/lib/facil/core/types/fiobj/fio_base64.c` (facil.io).

Memory is modelled as a total function from `Int` offsets to `Nat` cell
contents; reads go through `rd` (a `uint8` load, truncating mod 256) and
stores through `upd` (a `char` store, truncating mod 256).  The byte area
of an input buffer occupies offsets `[0, len)`; cells outside it model the
surrounding process memory, which the C code can in fact touch (the decoder
reads `encoded[-1]` / `encoded[-2]` when nothing was consumed, and its skip
loops can run past the end of the buffer because `base64_len` is not
decremented by the four `tmp` reads of a group).

The decoder's `BITVAL(x)` macro indexes `base64_decodes` with
`(size_t)tmp`, where `tmp` is a (signed) `char`: a byte `≥ 128` is
sign-extended to a huge index, an out-of-bounds table read.  That read is
modelled by the junk-table parameter `tj`.  All theorems below only ever
evaluate `BITVAL` on bytes `< 128`.
-/

namespace FioBase64

/-- Byte load of cell `i` (C reads through a `uint8_t` / `char` pointer). -/
def rd (mem : Int → Nat) (i : Int) : Nat := mem i % 256

/-- Byte store into cell `i` (C stores through a `char` pointer; mod 256). -/
def upd (mem : Int → Nat) (i : Int) (v : Nat) : Int → Nat :=
  fun j => if j = i then v % 256 else mem j

/-- Memory holding list `l` at offsets `[0, l.length)` and 0 elsewhere. -/
def listMem (l : List Nat) : Int → Nat :=
  fun i => if 0 ≤ i ∧ i < l.length then l.getD i.toNat 0 else 0

/-- Replay a list of (offset, value) write events over an initial memory. -/
def applyW (m : Int → Nat) : List (Int × Nat) → Int → Nat
  | [] => m
  | (i, v) :: ws => applyW (fun j => if j = i then v else m j) ws

/-! ### The lookup tables (lines 20-56 of fio_base64.c) -/

/-- `base64_encodes_original`: the standard encoding alphabet, as byte values. -/
def base64_encodes_original : List Nat :=
  "ABCDEFGHIJKLMNOPQRSTUVWXYZabcdefghijklmnopqrstuvwxyz0123456789+/=".data.map Char.toNat

/-- `base64_encodes_url`: the URL-safe encoding alphabet, as byte values. -/
def base64_encodes_url : List Nat :=
  "ABCDEFGHIJKLMNOPQRSTUVWXYZabcdefghijklmnopqrstuvwxyz0123456789-_=".data.map Char.toNat

/-- `base64_decodes`: the shared 256-entry backward table, transcribed row by
row (19 entries per row) from the C initializer. -/
def base64_decodes : List Nat :=
  [0,  0,  0,  0,  0,  0,  0,  0,  0,  0,  0,  0,  0,  0,  0,  0,  0,  0,  0,
   0,  0,  0,  0,  0,  0,  0,  0,  0,  0,  0,  0,  0,  0,  0,  0,  0,  0,  0,
   0,  0,  0,  0,  0,  62, 63, 62, 0,  63, 52, 53, 54, 55, 56, 57, 58, 59, 60,
   61, 0,  0,  0,  64, 0,  0,  0,  0,  1,  2,  3,  4,  5,  6,  7,  8,  9,  10,
   11, 12, 13, 14, 15, 16, 17, 18, 19, 20, 21, 22, 23, 24, 25, 0,  0,  0,  0,
   63, 0,  26, 27, 28, 29, 30, 31, 32, 33, 34, 35, 36, 37, 38, 39, 40, 41, 42,
   43, 44, 45, 46, 47, 48, 49, 50, 51, 0,  0,  0,  0,  0,  0,  0,  0,  0,  0,
   0,  0,  0,  0,  0,  0,  0,  0,  0,  0,  0,  0,  0,  0,  0,  0,  0,  0,  0,
   0,  0,  0,  0,  0,  0,  0,  0,  0,  0,  0,  0,  0,  0,  0,  0,  0,  0,  0,
   0,  0,  0,  0,  0,  0,  0,  0,  0,  0,  0,  0,  0,  0,  0,  0,  0,  0,  0,
   0,  0,  0,  0,  0,  0,  0,  0,  0,  0,  0,  0,  0,  0,  0,  0,  0,  0,  0,
   0,  0,  0,  0,  0,  0,  0,  0,  0,  0,  0,  0,  0,  0,  0,  0,  0,  0,  0,
   0,  0,  0,  0,  0,  0,  0,  0,  0,  0,  0,  0,  0,  0,  0,  0,  0,  0,  0,
   0,  0,  0,  0,  0,  0,  0,  0,  0]

/-- Lookup `base64_decodes[x]` for a byte value `x` (always in bounds for
`x < 256`, which every `rd` read guarantees). -/
def bdecode (x : Nat) : Nat := base64_decodes.getD x 0

/-- Lookup in an encoding alphabet: `base64_encodes[v]`. -/
def etbl (tbl : List Nat) (v : Nat) : Nat := tbl.getD v 0

/-- `BITVAL(x)`, i.e. `base64_decodes[(size_t)tmp] & 63`.  For a byte
`< 128` the signed `char` cast is the identity and the access is in
bounds; for a byte `≥ 128` the index is sign-extended out of bounds and
the C reads junk, modelled by `tj`. -/
def BITVAL (tj : Nat → Nat) (x : Nat) : Nat :=
  if x < 128 then bdecode x &&& 63 else tj x &&& 63

/-! ### The encoder (`fio_base64_encode_internal`, lines 62-100) -/

/-- One pass of the encoder's `while (groups)` loop: each iteration reads the
three data bytes at `r-2, r-1, r` (in the order tmp3, tmp2, tmp1), writes the
four symbol characters at `w, w-1, w-2, w-3` (in that order), and moves both
cursors down.  Walking backwards is what makes `target == data` safe. -/
def encLoop (tbl : List Nat) : (Int → Nat) → Int → Int → Nat → (Int → Nat)
  | mem, _, _, 0 => mem
  | mem, w, r, g+1 =>
    let tmp3 := rd mem r
    let tmp2 := rd mem (r-1)
    let tmp1 := rd mem (r-2)
    let m1 := upd mem w (etbl tbl (tmp3 &&& 63))
    let m2 := upd m1 (w-1) (etbl tbl ((tmp2 &&& 15) <<< 2 ||| (tmp3 >>> 6) &&& 3))
    let m3 := upd m2 (w-2) (etbl tbl ((tmp1 &&& 3) <<< 4 ||| (tmp2 >>> 4) &&& 15))
    let m4 := upd m3 (w-3) (etbl tbl ((tmp1 >>> 2) &&& 63))
    encLoop tbl m4 (w-4) (r-3) g

/-- `fio_base64_encode_internal(target, data, len, base64_encodes)`:
`target`/`data` are base offsets into the shared memory, `len` the data
length.  Returns the final memory and the returned `target_size`.
Mirrors the C line by line: `writer[1] = 0` first, then the `switch (mod)`
partial-group cases (reads before writes), then the full-group loop. -/
def fio_base64_encode_internal (mem : Int → Nat) (target data : Int) (len : Nat)
    (tbl : List Nat) : (Int → Nat) × Nat :=
  let groups := len / 3
  let md := len - groups * 3
  let target_size := (groups + (if md ≠ 0 then 1 else 0)) * 4
  let m0 := upd mem (target + target_size) 0
  let mTail :=
    if md = 2 then
      let tmp2 := rd m0 (data + len - 1)
      let tmp1 := rd m0 (data + len - 2)
      let a1 := upd m0 (target + target_size - 1) 61
      let a2 := upd a1 (target + target_size - 2) (etbl tbl ((tmp2 &&& 15) <<< 2))
      let a3 := upd a2 (target + target_size - 3)
        (etbl tbl ((tmp1 &&& 3) <<< 4 ||| (tmp2 >>> 4) &&& 15))
      upd a3 (target + target_size - 4) (etbl tbl ((tmp1 >>> 2) &&& 63))
    else if md = 1 then
      let tmp1 := rd m0 (data + len - 1)
      let a1 := upd m0 (target + target_size - 1) 61
      let a2 := upd a1 (target + target_size - 2) 61
      let a3 := upd a2 (target + target_size - 3) (etbl tbl ((tmp1 &&& 3) <<< 4))
      upd a3 (target + target_size - 4) (etbl tbl ((tmp1 >>> 2) &&& 63))
    else m0
  let wStart := target + target_size - 1 - (if md ≠ 0 then 4 else 0)
  let rStart := data + len - 1 - md
  (encLoop tbl mTail wStart rStart groups, target_size)

/-- `fio_base64_encode`: the public standard-alphabet entry point. -/
def fio_base64_encode (mem : Int → Nat) (target data : Int) (len : Nat) :
    (Int → Nat) × Nat :=
  fio_base64_encode_internal mem target data len base64_encodes_original

/-- `fio_base64url_encode`: the public URL-safe entry point. -/
def fio_base64url_encode (mem : Int → Nat) (target data : Int) (len : Nat) :
    (Int → Nat) × Nat :=
  fio_base64_encode_internal mem target data len base64_encodes_url

/-- Run the encoder on byte list `b` with disjoint buffers (data at offset 0,
target at offset `b.length`) and extract the `target_size` output bytes. -/
def fio_base64_encodeBytes (tbl : List Nat) (b : List Nat) : List Nat :=
  let n := (b.length : Int)
  let R := fio_base64_encode_internal (listMem b) n 0 b.length tbl
  (List.range R.2).map (fun k : Nat => R.1 (n + (k : Int)))

/-! ### The decoder (`fio_base64_decode`, lines 148-265) -/

/-- The entry skip loop (lines 157-160): `while (base64_len &&
!base64_decodes[*encoded]) base64_len--;` — it decrements the length but
never advances the cursor, so it either does nothing (first byte has a
nonzero table entry) or counts the length all the way down to zero. -/
def topSkip (mem : Int → Nat) (c : Nat) : Nat → Nat
  | 0 => 0
  | b+1 => if bdecode (rd mem c) ≠ 0 then b+1 else topSkip mem c b

/-- The in-loop skip loops (e.g. lines 162-166): `while (base64_len &&
!base64_decodes[*encoded]) { base64_len--; encoded++; }`.  Returns the new
cursor and remaining length. -/
def skipAdv (mem : Int → Nat) (c : Nat) : Nat → Nat × Nat
  | 0 => (c, 0)
  | b+1 => if bdecode (rd mem c) ≠ 0 then (c, b+1) else skipAdv mem (c+1) b

/-- Output byte `(BITVAL(tmp1) << 2) | (BITVAL(tmp2) >> 4)` (line 198). -/
def gB1 (tj : Nat → Nat) (t1 t2 : Nat) : Nat :=
  (BITVAL tj t1 <<< 2 ||| BITVAL tj t2 >>> 4) % 256

/-- Output byte `(BITVAL(tmp2) << 4) | (BITVAL(tmp3) >> 2)` (line 199). -/
def gB2 (tj : Nat → Nat) (t2 t3 : Nat) : Nat :=
  (BITVAL tj t2 <<< 4 ||| BITVAL tj t3 >>> 2) % 256

/-- Output byte `(BITVAL(tmp3) << 6) | BITVAL(tmp4)` (line 200). -/
def gB3 (tj : Nat → Nat) (t3 t4 : Nat) : Nat :=
  (BITVAL tj t3 <<< 6 ||| BITVAL tj t4) % 256

/-- Tail output byte `(BITVAL(tmp1) << 2) | (BITVAL(tmp2) >> 6)` — note the
`>> 6` (not `>> 4`) used by the switch cases and the `oops` labels. -/
def pB1 (tj : Nat → Nat) (t1 t2 : Nat) : Nat :=
  (BITVAL tj t1 <<< 2 ||| BITVAL tj t2 >>> 6) % 256

/-- Tail output byte `BITVAL(tmp2) << 4`. -/
def pB2 (tj : Nat → Nat) (t2 : Nat) : Nat := (BITVAL tj t2 <<< 4) % 256

/-- Tail output byte `(BITVAL(tmp2) << 4) | (BITVAL(tmp3) >> 2)`. -/
def pB2b (tj : Nat → Nat) (t2 t3 : Nat) : Nat :=
  (BITVAL tj t2 <<< 4 ||| BITVAL tj t3 >>> 2) % 256

/-- Tail output byte `BITVAL(tmp3) << 6`. -/
def pB3 (tj : Nat → Nat) (t3 : Nat) : Nat := (BITVAL tj t3 <<< 6) % 256

/-- The code after the main `while` loop (lines 211-248): the `switch
(base64_len)` over the 0-3 leftover bytes (read without any validity check),
the trailing-`'='` retraction on the raw bytes `encoded[-1]`/`encoded[-2]`,
and the final `*target = 0`.  `c` is the read cursor, `o` the output cursor,
`written` the byte count, `ws` the write events so far. -/
def tailFin (mem : Int → Nat) (tj : Nat → Nat) (c b : Nat) (o written : Int)
    (ws : List (Int × Nat)) : List (Int × Nat) × Int :=
  let step : List (Int × Nat) × Int × Int × Nat :=
    match b with
    | 1 =>
      let t1 := rd mem c
      (ws ++ [(o, BITVAL tj t1 % 256)], o+1, written+1, c+1)
    | 2 =>
      let t1 := rd mem c
      let t2 := rd mem ((c : Int)+1)
      (ws ++ [(o, pB1 tj t1 t2), (o+1, pB2 tj t2)], o+2, written+2, c+2)
    | 3 =>
      let t1 := rd mem c
      let t2 := rd mem ((c : Int)+1)
      let t3 := rd mem ((c : Int)+2)
      (ws ++ [(o, pB1 tj t1 t2), (o+1, pB2b tj t2 t3), (o+2, pB3 tj t3)],
       o+3, written+3, c+3)
    | _ => (ws, o, written, c)
  let ws2 := step.1
  let o2 := step.2.1
  let w2 := step.2.2.1
  let cf := step.2.2.2
  let r : Int × Int :=
    if rd mem ((cf : Int) - 1) = 61 then
      if rd mem ((cf : Int) - 2) = 61 then (o2 - 2, w2 - 2) else (o2 - 1, w2 - 1)
    else (o2, w2)
  (ws2 ++ [(r.1, 0)], r.2)

/-- The decoder's main `while (base64_len >= 4)` loop (lines 161-210), as a
fuel-indexed structural recursion: `fuel` only makes the recursion
structural; every call keeps `b ≤ fuel`, and each iteration lowers `b` by at
least 4, so the fuel never runs out (the fuel-0 fallback equals the loop-exit
path).  The four `if s.2 = 0` early returns are line 167's `return written`
and the `oops1`/`oops2`/`oops3` labels — none of them writes the
terminating zero byte. -/
def mainLoopF (mem : Int → Nat) (tj : Nat → Nat) :
    Nat → Nat → Nat → Int → Int → List (Int × Nat) → List (Int × Nat) × Int
  | 0, c, b, o, written, ws => tailFin mem tj c b o written ws
  | fuel+1, c, b, o, written, ws =>
    if b < 4 then tailFin mem tj c b o written ws
    else
      let s1 := skipAdv mem c b
      if s1.2 = 0 then (ws, written)
      else
        let t1 := rd mem s1.1
        let s2 := skipAdv mem (s1.1+1) s1.2
        if s2.2 = 0 then (ws ++ [(o, BITVAL tj t1 % 256)], written + 1)
        else
          let t2 := rd mem s2.1
          let s3 := skipAdv mem (s2.1+1) s2.2
          if s3.2 = 0 then
            (ws ++ [(o, pB1 tj t1 t2), (o+1, pB2 tj t2)], written + 2)
          else
            let t3 := rd mem s3.1
            let s4 := skipAdv mem (s3.1+1) s3.2
            if s4.2 = 0 then
              (ws ++ [(o, pB1 tj t1 t2), (o+1, pB2b tj t2 t3), (o+2, pB3 tj t3)],
               written + 3)
            else
              let t4 := rd mem s4.1
              let s5 := skipAdv mem (s4.1+1) (s4.2 - 4)
              mainLoopF mem tj fuel s5.1 s5.2 (o+3) (written+3)
                (ws ++ [(o, gB1 tj t1 t2), (o+1, gB2 tj t2 t3), (o+2, gB3 tj t3 t4)])

/-- `fio_base64_decode(target, encoded, base64_len)` with a separate output
buffer: returns the write events into the output buffer (offset, byte) in
program order, and the returned count.  `len = 0` is the `base64_len <= 0`
early return (`target[0] = 0; return 0;`). -/
def fio_base64_decode (mem : Int → Nat) (tj : Nat → Nat) (len : Nat) :
    List (Int × Nat) × Int :=
  if len = 0 then ([(0, 0)], 0)
  else mainLoopF mem tj len 0 (topSkip mem 0 len) 0 0 []

end FioBase64

namespace FioBase64

/-! ### Pure forms of the two transformations, used to state the run lemmas -/

/-- The character list the encoder produces for data `b`: full 3-byte groups
become four alphabet characters; a final 1- or 2-byte group becomes the
partial cases of the `switch (mod)` with one or two `'='` (61) characters. -/
def encPure (tbl : List Nat) : List Nat → List Nat
  | t1 :: t2 :: t3 :: rest =>
    etbl tbl ((t1 >>> 2) &&& 63) ::
    etbl tbl ((t1 &&& 3) <<< 4 ||| (t2 >>> 4) &&& 15) ::
    etbl tbl ((t2 &&& 15) <<< 2 ||| (t3 >>> 6) &&& 3) ::
    etbl tbl (t3 &&& 63) :: encPure tbl rest
  | [t1, t2] =>
    [etbl tbl ((t1 >>> 2) &&& 63),
     etbl tbl ((t1 &&& 3) <<< 4 ||| (t2 >>> 4) &&& 15),
     etbl tbl ((t2 &&& 15) <<< 2), 61]
  | [t1] =>
    [etbl tbl ((t1 >>> 2) &&& 63), etbl tbl ((t1 &&& 3) <<< 4), 61, 61]
  | [] => []

/-- The bytes the decoder's main loop derives from a stream of consumed
symbol characters, four at a time (the three writes of lines 198-200). -/
def decGroups : List Nat → List Nat
  | s1 :: s2 :: s3 :: s4 :: rest =>
    ((bdecode s1 &&& 63) <<< 2 ||| (bdecode s2 &&& 63) >>> 4) % 256 ::
    ((bdecode s2 &&& 63) <<< 4 ||| (bdecode s3 &&& 63) >>> 2) % 256 ::
    ((bdecode s3 &&& 63) <<< 6 ||| (bdecode s4 &&& 63)) % 256 ::
    decGroups rest
  | _ => []

/-- Write events for consecutive output cells starting at offset `o`. -/
def enumFrom (o : Int) : List Nat → List (Int × Nat)
  | [] => []
  | x :: xs => (o, x) :: enumFrom (o + 1) xs

/-- The window of `b` bytes the decoder can see from cursor `c`. -/
def win (mem : Int → Nat) (c b : Nat) : List Nat :=
  (List.range b).map (fun j => rd mem ((c + j : Nat) : Int))

/-- The symbol characters (nonzero `base64_decodes` entry) in the window:
exactly the bytes the skip loops do not discard. -/
def vSyms (mem : Int → Nat) (c b : Nat) : List Nat :=
  (win mem c b).filter (fun x => bdecode x != 0)

/-- Length of the run of skippable bytes at the cursor (capped by `b`):
the number of iterations a skip loop performs. -/
def firstV (mem : Int → Nat) (c : Nat) : Nat → Nat
  | 0 => 0
  | b+1 => if bdecode (rd mem c) ≠ 0 then 0 else firstV mem (c+1) b + 1

/-! ### Facts about the tables, settled by evaluation -/

/-- Decoding the character the standard alphabet assigns to a 6-bit value
recovers that value. -/
theorem bdecode_etbl_original : ∀ v : Nat, v < 64 →
    bdecode (etbl base64_encodes_original v) &&& 63 = v := by decide

/-- Decoding the character the URL-safe alphabet assigns to a 6-bit value
recovers that value. -/
theorem bdecode_etbl_url : ∀ v : Nat, v < 64 →
    bdecode (etbl base64_encodes_url v) &&& 63 = v := by decide

/-- No symbol character of the standard alphabet is the padding byte 61. -/
theorem etbl_original_ne_61 : ∀ v : Nat, v < 64 →
    etbl base64_encodes_original v ≠ 61 := by decide

/-- No symbol character of the URL-safe alphabet is the padding byte 61. -/
theorem etbl_url_ne_61 : ∀ v : Nat, v < 64 → etbl base64_encodes_url v ≠ 61 := by decide

/-- Standard alphabet characters are bytes below 128. -/
theorem etbl_original_lt : ∀ v : Nat, v < 64 →
    etbl base64_encodes_original v < 128 := by decide

/-- URL-safe alphabet characters are bytes below 128. -/
theorem etbl_url_lt : ∀ v : Nat, v < 64 → etbl base64_encodes_url v < 128 := by decide

/-- The padding byte: `base64_decodes['='] = 64`. -/
theorem bdecode_61 : bdecode 61 = 64 := by decide

/-- Table entries never exceed 64. -/
theorem bdecode_le : ∀ x : Nat, x < 256 → bdecode x ≤ 64 := by decide

/-- Bytes with the high bit set all have table entry 0 (they are always
skipped, hence never reach `BITVAL` from the main loop). -/
theorem bdecode_hi : ∀ x : Nat, 128 ≤ x → x < 256 → bdecode x = 0 := by decide

/-- For a byte the skip loops keep, `BITVAL` is the plain table lookup. -/
theorem BITVAL_valid (tj : Nat → Nat) (x : Nat) (hx : x < 256)
    (hv : bdecode x ≠ 0) : BITVAL tj x = bdecode x &&& 63 := by
  have : x < 128 := by
    by_contra h
    exact hv (bdecode_hi x (by omega) hx)
  simp [BITVAL, this]

/-! ### Bit-level identities (all operands bounded, settled by evaluation) -/

theorem shr2_and (t : Nat) (h : t < 256) : (t >>> 2) &&& 63 = t / 4 := by
  revert t h; decide

theorem and3 (t : Nat) (h : t < 256) : t &&& 3 = t % 4 := by revert t h; decide

theorem and15 (t : Nat) (h : t < 256) : t &&& 15 = t % 16 := by revert t h; decide

theorem and63 (t : Nat) (h : t < 256) : t &&& 63 = t % 64 := by revert t h; decide

theorem shr4_and (t : Nat) (h : t < 256) : (t >>> 4) &&& 15 = t / 16 := by
  revert t h; decide

theorem shr6_and (t : Nat) (h : t < 256) : (t >>> 6) &&& 3 = t / 64 := by
  revert t h; decide

theorem shl4_or (a b : Nat) (ha : a < 4) (hb : b < 16) :
    a <<< 4 ||| b = 16 * a + b :=
  (by decide : ∀ a < 4, ∀ b < 16, a <<< 4 ||| b = 16 * a + b) a ha b hb

theorem shl2_or (a b : Nat) (ha : a < 16) (hb : b < 4) :
    a <<< 2 ||| b = 4 * a + b :=
  (by decide : ∀ a < 16, ∀ b < 4, a <<< 2 ||| b = 4 * a + b) a ha b hb

theorem shl4 (a : Nat) (h : a < 64) : a <<< 4 = 16 * a := by revert a h; decide

theorem shl2 (a : Nat) (h : a < 64) : a <<< 2 = 4 * a := by revert a h; decide

theorem shl6 (a : Nat) (h : a < 64) : a <<< 6 = 64 * a := by revert a h; decide

theorem shr4 (a : Nat) (h : a < 64) : a >>> 4 = a / 16 := by revert a h; decide

theorem shr2 (a : Nat) (h : a < 64) : a >>> 2 = a / 4 := by revert a h; decide

theorem shr6 (a : Nat) (h : a < 64) : a >>> 6 = 0 := by revert a h; decide

theorem or_small2 (a c : Nat) (ha : a < 64) (hc : c < 4) :
    4 * a ||| c = 4 * a + c :=
  (by decide : ∀ a < 64, ∀ c < 4, 4 * a ||| c = 4 * a + c) a ha c hc

theorem or_small4 (a c : Nat) (ha : a < 64) (hc : c < 16) :
    16 * a ||| c = 16 * a + c :=
  (by decide : ∀ a < 64, ∀ c < 16, 16 * a ||| c = 16 * a + c) a ha c hc

theorem or_small6 (a c : Nat) (ha : a < 64) (hc : c < 64) :
    64 * a ||| c = 64 * a + c :=
  (by decide : ∀ a < 64, ∀ c < 64, 64 * a ||| c = 64 * a + c) a ha c hc

end FioBase64

namespace FioBase64

/-! ### Encoder run lemmas -/

theorem upd_self (mem : Int → Nat) (i : Int) (v : Nat) : upd mem i v i = v % 256 := by
  simp [upd]

theorem upd_ne (mem : Int → Nat) (i : Int) (v : Nat) (j : Int) (h : j ≠ i) :
    upd mem i v j = mem j := by
  simp [upd, h]

/-- The encoder emits `4 * ceil(len/3)` characters. -/
theorem encPure_length (tbl : List Nat) :
    ∀ b : List Nat, (encPure tbl b).length = 4 * ((b.length + 2) / 3)
  | [] => by simp [encPure]
  | [t1] => by simp [encPure]
  | [t1, t2] => by simp [encPure]
  | t1 :: t2 :: t3 :: rest => by
    have ih := encPure_length tbl rest
    simp only [encPure, List.length_cons, ih]
    omega

/-- Full groups encode independently of what follows. -/
theorem encPure_append (tbl : List Nat) :
    ∀ xs ys : List Nat, xs.length % 3 = 0 →
      encPure tbl (xs ++ ys) = encPure tbl xs ++ encPure tbl ys
  | [], ys, _ => by simp [encPure]
  | [t1], ys, h => by simp at h
  | [t1, t2], ys, h => by simp at h
  | t1 :: t2 :: t3 :: rest, ys, h => by
    have hr : rest.length % 3 = 0 := by
      simp only [List.length_cons] at h; omega
    have ih := encPure_append tbl rest ys hr
    simp [encPure, ih]

/-- One unfolding of the `while (groups)` loop. -/
theorem encLoop_succ (tbl : List Nat) (mem : Int → Nat) (w r : Int) (g : Nat) :
    encLoop tbl mem w r (g+1) =
      encLoop tbl
        (upd (upd (upd (upd mem w (etbl tbl (rd mem r &&& 63)))
          (w-1) (etbl tbl ((rd mem (r-1) &&& 15) <<< 2 ||| (rd mem r >>> 6) &&& 3)))
          (w-2) (etbl tbl ((rd mem (r-2) &&& 3) <<< 4 ||| (rd mem (r-1) >>> 4) &&& 15)))
          (w-3) (etbl tbl ((rd mem (r-2) >>> 2) &&& 63)))
        (w-4) (r-3) g := rfl

/-- What the group loop leaves in memory: the pure encoding of the `3 * g`
data bytes sits at `[t, t + 4 * g)`, everything else is untouched.  The
hypothesis `d ≤ t` covers both the aliased (`d = t`) and the disjoint
layout; it guarantees a group's four writes land at or above the cells the
remaining (lower) groups still have to read. -/
theorem encLoop_run (tbl : List Nat) :
    ∀ (g : Nat) (bs : List Nat) (mem : Int → Nat) (t d : Int),
      bs.length = 3 * g → d ≤ t →
      (∀ j : Nat, j < 3 * g → mem (d + j) % 256 = bs.getD j 0) →
      ∀ i : Int,
        encLoop tbl mem (t + 4 * g - 1) (d + 3 * g - 1) g i =
          if t ≤ i ∧ i < t + 4 * g then (encPure tbl bs).getD (i - t).toNat 0 % 256
          else mem i := by
  intro g
  induction g with
  | zero =>
    intro bs mem t d hlen hdt H i
    have hbs : bs = [] := List.length_eq_zero.mp (by omega)
    subst hbs
    simp only [encLoop]
    rw [if_neg (by omega)]
  | succ g ih =>
    intro bs mem t d hlen hdt H i
    obtain ⟨bs1, bs2, hsplit, hlen1, hlen2⟩ :
        ∃ bs1 bs2, bs = bs1 ++ bs2 ∧ bs1.length = 3 * g ∧ bs2.length = 3 := by
      refine ⟨bs.take (3*g), bs.drop (3*g), (List.take_append_drop _ _).symm, ?_, ?_⟩
      · simp only [List.length_take]; omega
      · simp only [List.length_drop]; omega
    obtain ⟨a1, a2, a3, rfl⟩ := List.length_eq_three.mp hlen2
    subst hsplit
    rw [show ((g+1 : Nat) : Int) = (g : Int) + 1 from by push_cast; ring]
    have e3 : rd mem (d + 3 * (g+1) - 1) = a3 := by
      have h1 : d + 3 * (g+1) - 1 = d + ((3*g+2 : Nat) : Int) := by push_cast; ring
      simp only [rd, h1, H (3*g+2) (by omega)]
      rw [List.getD_append_right _ _ _ _ (by omega), hlen1]
      simp [Nat.add_sub_cancel_left]
    have e2 : rd mem (d + 3 * (g+1) - 1 - 1) = a2 := by
      have h1 : d + 3 * (g+1) - 1 - 1 = d + ((3*g+1 : Nat) : Int) := by push_cast; ring
      simp only [rd, h1, H (3*g+1) (by omega)]
      rw [List.getD_append_right _ _ _ _ (by omega), hlen1]
      simp [Nat.add_sub_cancel_left]
    have e1 : rd mem (d + 3 * (g+1) - 1 - 2) = a1 := by
      have h1 : d + 3 * (g+1) - 1 - 2 = d + ((3*g : Nat) : Int) := by push_cast; ring
      simp only [rd, h1, H (3*g) (by omega)]
      rw [List.getD_append_right _ _ _ _ (by omega), hlen1]
      simp
    rw [encLoop_succ, e1, e2, e3]
    have n1 : t + 4 * ((g : Int)+1) - 1 = t + 4*g + 3 := by ring
    rw [n1]
    have n2 : t + 4*(g:Int) + 3 - 1 = t + 4*g + 2 := by ring
    have n3 : t + 4*(g:Int) + 3 - 2 = t + 4*g + 1 := by ring
    have n4 : t + 4*(g:Int) + 3 - 3 = t + 4*g := by ring
    have n5 : t + 4*(g:Int) + 3 - 4 = t + 4*g - 1 := by ring
    have hr3 : d + 3 * ((g:Int)+1) - 1 - 3 = d + 3 * g - 1 := by ring
    rw [n2, n3, n4, n5, hr3]
    set c4 := etbl tbl (a3 &&& 63) with hc4
    set c3 := etbl tbl ((a2 &&& 15) <<< 2 ||| a3 >>> 6 &&& 3) with hc3
    set c2 := etbl tbl ((a1 &&& 3) <<< 4 ||| a2 >>> 4 &&& 15) with hc2
    set c1 := etbl tbl ((a1 >>> 2) &&& 63) with hc1
    set M := upd (upd (upd (upd mem (t + 4*(g:Int) + 3) c4)
      (t + 4*(g:Int) + 2) c3) (t + 4*(g:Int) + 1) c2) (t + 4*(g:Int)) c1 with hM
    have hMeq : ∀ j : Int, (j < t + 4 * g ∨ t + 4 * g + 3 < j) → M j = mem j := by
      intro j hj
      rw [hM, upd_ne _ _ _ _ (by omega), upd_ne _ _ _ _ (by omega),
        upd_ne _ _ _ _ (by omega), upd_ne _ _ _ _ (by omega)]
    have H1 : ∀ j : Nat, j < 3 * g → M (d + j) % 256 = bs1.getD j 0 := by
      intro j hj
      rw [hMeq _ (Or.inl (by omega)), H j (by omega),
        List.getD_append _ _ _ _ (by omega)]
    have ihi := ih bs1 M t d hlen1 hdt H1 i
    rw [ihi]
    have hepl : (encPure tbl bs1).length = 4 * g := by
      rw [encPure_length, hlen1]; omega
    have hfull : encPure tbl (bs1 ++ [a1, a2, a3]) =
        encPure tbl bs1 ++ [c1, c2, c3, c4] := by
      rw [encPure_append tbl bs1 [a1, a2, a3] (by omega)]
      simp only [encPure, hc1, hc2, hc3, hc4, List.append_nil]
    by_cases h1 : t ≤ i ∧ i < t + 4 * g
    · rw [if_pos h1, if_pos (by omega), hfull,
        List.getD_append _ _ _ _ (by rw [hepl]; omega)]
    · rw [if_neg h1]
      by_cases h2 : t ≤ i ∧ i < t + 4 * ((g : Int) + 1)
      · rw [if_pos h2, hfull,
          List.getD_append_right _ _ _ _ (by rw [hepl]; omega), hepl]
        have hi4 : i = t + 4*(g:Int) ∨ i = t + 4*(g:Int) + 1 ∨
            i = t + 4*(g:Int) + 2 ∨ i = t + 4*(g:Int) + 3 := by omega
        rcases hi4 with hi | hi | hi | hi <;> subst hi
        · have hn : ((t + 4*(g:Int) - t).toNat - 4 * g) = 0 := by omega
          rw [hn, hM, upd_self]
          simp
        · have hn : ((t + 4*(g:Int) + 1 - t).toNat - 4 * g) = 1 := by omega
          rw [hn, hM, upd_ne _ _ _ _ (by omega), upd_self]
          simp
        · have hn : ((t + 4*(g:Int) + 2 - t).toNat - 4 * g) = 2 := by omega
          rw [hn, hM, upd_ne _ _ _ _ (by omega), upd_ne _ _ _ _ (by omega), upd_self]
          simp
        · have hn : ((t + 4*(g:Int) + 3 - t).toNat - 4 * g) = 3 := by omega
          rw [hn, hM, upd_ne _ _ _ _ (by omega), upd_ne _ _ _ _ (by omega),
            upd_ne _ _ _ _ (by omega), upd_self]
          simp
      · rw [if_neg h2]
        rcases (by omega : i < t ∨ t + 4 * (g:Int) + 3 < i) with h3 | h3
        · exact hMeq i (Or.inl (by omega))
        · exact hMeq i (Or.inr h3)

end FioBase64

namespace FioBase64

/-- Full characterization of `fio_base64_encode_internal`: the returned size
is `4 * ceil(len/3)`; the output region `[t, t + size)` holds the pure
encoding; the cell at `t + size` holds the zero written by `writer[1] = 0`
(line 71); every other cell of memory is untouched.  Holds whenever
`d ≤ t`, hence both in place (`d = t`) and with disjoint buffers. -/
theorem encode_internal_run (tbl : List Nat) (b : List Nat) (mem : Int → Nat)
    (t d : Int) (hdt : d ≤ t)
    (H : ∀ j : Nat, j < b.length → mem (d + j) % 256 = b.getD j 0) :
    (fio_base64_encode_internal mem t d b.length tbl).2 = 4 * ((b.length + 2) / 3) ∧
    ∀ i : Int, (fio_base64_encode_internal mem t d b.length tbl).1 i =
      if t ≤ i ∧ i < t + (4 * ((b.length + 2) / 3) : Nat) then
        (encPure tbl b).getD (i - t).toNat 0 % 256
      else if i = t + (4 * ((b.length + 2) / 3) : Nat) then 0
      else mem i := by
  constructor
  · simp only [fio_base64_encode_internal]
    split_ifs <;> omega
  intro i
  have hmd3 : b.length % 3 = 0 ∨ b.length % 3 = 1 ∨ b.length % 3 = 2 := by omega
  rcases hmd3 with hmd | hmd | hmd
  · -- mod = 0 : no partial group
    have hmd0 : b.length - b.length / 3 * 3 = 0 := by omega
    simp only [fio_base64_encode_internal, hmd0]
    rw [if_neg (by decide : ¬ (0:Nat) ≠ 0), if_neg (by decide : ¬ (0:Nat) ≠ 0),
      sub_zero, Nat.cast_zero, sub_zero, if_neg (by decide : ¬ (0:Nat) = 2),
      if_neg (by decide : ¬ (0:Nat) = 1)]
    have hc1 : (↑((b.length / 3 + 0) * 4) : Int) = 4 * ↑(b.length / 3) := by
      push_cast; ring
    have hc2 : (↑b.length : Int) = 3 * ↑(b.length / 3) := by
      have : b.length = 3 * (b.length / 3) := by omega
      exact_mod_cast congrArg (Nat.cast : Nat → Int) this
    rw [hc1, hc2]
    have H0 : ∀ j : Nat, j < 3 * (b.length / 3) →
        upd mem (t + 4 * ↑(b.length / 3)) 0 (d + j) % 256 = b.getD j 0 := by
      intro j hj
      rw [upd_ne _ _ _ _ (by omega)]
      exact H j (by omega)
    have hrun := encLoop_run tbl (b.length / 3) b
      (upd mem (t + 4 * ↑(b.length / 3)) 0) t d (by omega) hdt H0 i
    rw [hrun]
    have hsieq : (4 * ((b.length + 2) / 3) : Nat) = (4 * (b.length / 3) : Nat) := by omega
    rw [hsieq]
    have hcast : (↑(4 * (b.length / 3)) : Int) = 4 * ↑(b.length / 3) := by push_cast; ring
    rw [hcast]
    by_cases h1 : t ≤ i ∧ i < t + 4 * (↑(b.length / 3) : Int)
    · rw [if_pos h1, if_pos h1]
    · rw [if_neg h1, if_neg h1]
      by_cases h2 : i = t + 4 * (↑(b.length / 3) : Int)
      · rw [if_pos h2, h2, upd_self]
      · rw [if_neg h2, upd_ne _ _ _ _ h2]
  · -- mod = 1 : switch case 1 writes two pad characters
    have hmd1 : b.length - b.length / 3 * 3 = 1 := by omega
    obtain ⟨bs1, a1, hsplit, hlen1⟩ :
        ∃ bs1 a1, b = bs1 ++ [a1] ∧ bs1.length = 3 * (b.length / 3) := by
      have hlend : (b.drop (3 * (b.length / 3))).length = 1 := by
        simp only [List.length_drop]; omega
      obtain ⟨x, hx⟩ := List.length_eq_one.mp hlend
      refine ⟨b.take (3 * (b.length / 3)), x, ?_, ?_⟩
      · rw [← hx]; exact (List.take_append_drop _ _).symm
      · simp only [List.length_take]; omega
    have hgetb : b.getD (3 * (b.length / 3)) 0 = a1 := by
      rw [← hlen1, hsplit, List.getD_append_right _ _ _ _ (le_refl _)]
      simp
    simp only [fio_base64_encode_internal, hmd1]
    rw [if_pos (by decide : (1:Nat) ≠ 0), if_pos (by decide : (1:Nat) ≠ 0),
      Nat.cast_one, if_neg (by decide : ¬ (1:Nat) = 2), if_pos (trivial : True)]
    have hc1 : (↑((b.length / 3 + 1) * 4) : Int) = 4 * ↑(b.length / 3) + 4 := by
      push_cast; ring
    have hc2 : (↑b.length : Int) = 3 * ↑(b.length / 3) + 1 := by
      have : b.length = 3 * (b.length / 3) + 1 := by omega
      exact_mod_cast congrArg (Nat.cast : Nat → Int) this
    rw [hc1, hc2]
    set G : Int := (↑(b.length / 3) : Int) with hG
    have htmp : rd (upd mem (t + (4 * G + 4)) 0) (d + (3 * G + 1) - 1) = a1 := by
      rw [rd, upd_ne _ _ _ _ (by omega)]
      have h1 : d + (3 * G + 1) - 1 = d + ((3 * (b.length / 3) : Nat) : Int) := by
        rw [hG]; push_cast; ring
      rw [h1, H (3 * (b.length / 3)) (by omega), hgetb]
    rw [htmp]
    set m0 := upd mem (t + (4 * G + 4)) 0 with hm0
    set mT := upd (upd (upd (upd m0 (t + (4 * G + 4) - 1) 61) (t + (4 * G + 4) - 2) 61)
      (t + (4 * G + 4) - 3) (etbl tbl ((a1 &&& 3) <<< 4)))
      (t + (4 * G + 4) - 4) (etbl tbl ((a1 >>> 2) &&& 63)) with hmT
    have hmTeq : ∀ j : Int, (j < t + 4 * G ∨ t + 4 * G + 4 < j) → mT j = mem j := by
      intro j hj
      rw [hmT, upd_ne _ _ _ _ (by omega), upd_ne _ _ _ _ (by omega),
        upd_ne _ _ _ _ (by omega), upd_ne _ _ _ _ (by omega), hm0,
        upd_ne _ _ _ _ (by omega)]
    have H1 : ∀ j : Nat, j < 3 * (b.length / 3) → mT (d + j) % 256 = bs1.getD j 0 := by
      intro j hj
      rw [hmTeq _ (Or.inl (by omega)), H j (by omega), hsplit,
        List.getD_append _ _ _ _ (by omega)]
    have hws : t + (4 * G + 4) - 1 - 4 = t + 4 * G - 1 := by ring
    have hrs : d + (3 * G + 1) - 1 - 1 = d + 3 * G - 1 := by ring
    rw [hws, hrs]
    have hrun := encLoop_run tbl (b.length / 3) bs1 mT t d hlen1 hdt H1 i
    rw [← hG] at hrun
    rw [hrun]
    have hsieq : (4 * ((b.length + 2) / 3) : Nat) = 4 * (b.length / 3) + 4 := by omega
    rw [hsieq]
    have hcast : (↑(4 * (b.length / 3) + 4) : Int) = 4 * G + 4 := by
      rw [hG]; push_cast; ring
    rw [hcast]
    have hepl : (encPure tbl bs1).length = 4 * (b.length / 3) := by
      rw [encPure_length, hlen1]; omega
    have hfull : encPure tbl b = encPure tbl bs1 ++
        [etbl tbl ((a1 >>> 2) &&& 63), etbl tbl ((a1 &&& 3) <<< 4), 61, 61] := by
      rw [hsplit, encPure_append tbl bs1 [a1] (by omega)]
      simp only [encPure]
    by_cases h1 : t ≤ i ∧ i < t + 4 * G
    · rw [if_pos h1, if_pos (by omega), hfull,
        List.getD_append _ _ _ _ (by rw [hepl]; omega)]
    · rw [if_neg h1]
      by_cases h2 : t ≤ i ∧ i < t + 4 * G + 4
      · rw [if_pos (by omega), hfull,
          List.getD_append_right _ _ _ _ (by rw [hepl]; omega), hepl]
        have hi4 : i = t + 4*G ∨ i = t + 4*G + 1 ∨ i = t + 4*G + 2 ∨
            i = t + 4*G + 3 := by omega
        rcases hi4 with hi | hi | hi | hi <;> subst hi <;> rw [hmT]
        · rw [show t + 4*G = t + (4*G + 4) - 4 from by ring, upd_self]
          have hx0 : ((t + (4*G+4) - 4 - t).toNat - 4 * (b.length / 3)) = 0 := by omega
          rw [hx0]
          simp
        · rw [upd_ne _ _ _ _ (by omega),
            show t + 4*G + 1 = t + (4*G + 4) - 3 from by ring, upd_self]
          have hx1 : ((t + (4*G+4) - 3 - t).toNat - 4 * (b.length / 3)) = 1 := by omega
          rw [hx1]
          simp
        · rw [upd_ne _ _ _ _ (by omega), upd_ne _ _ _ _ (by omega),
            show t + 4*G + 2 = t + (4*G + 4) - 2 from by ring, upd_self]
          have hx2 : ((t + (4*G+4) - 2 - t).toNat - 4 * (b.length / 3)) = 2 := by omega
          rw [hx2]
          simp
        · rw [upd_ne _ _ _ _ (by omega), upd_ne _ _ _ _ (by omega),
            upd_ne _ _ _ _ (by omega),
            show t + 4*G + 3 = t + (4*G + 4) - 1 from by ring, upd_self]
          have hx3 : ((t + (4*G+4) - 1 - t).toNat - 4 * (b.length / 3)) = 3 := by omega
          rw [hx3]
          simp
      · rw [if_neg (by omega)]
        by_cases h3 : i = t + 4 * G + 4
        · rw [if_pos (by omega), h3, hmT,
            upd_ne _ _ _ _ (by omega), upd_ne _ _ _ _ (by omega),
            upd_ne _ _ _ _ (by omega), upd_ne _ _ _ _ (by omega), hm0,
            show t + 4*G + 4 = t + (4*G + 4) from by ring, upd_self]
        · rw [if_neg (by omega)]
          exact hmTeq i (by omega)
  · -- mod = 2 : switch case 2 writes one pad character
    have hmd2 : b.length - b.length / 3 * 3 = 2 := by omega
    obtain ⟨bs1, a1, a2, hsplit, hlen1⟩ :
        ∃ bs1 a1 a2, b = bs1 ++ [a1, a2] ∧ bs1.length = 3 * (b.length / 3) := by
      have hlend : (b.drop (3 * (b.length / 3))).length = 2 := by
        simp only [List.length_drop]; omega
      obtain ⟨x, y, hxy⟩ := List.length_eq_two.mp hlend
      refine ⟨b.take (3 * (b.length / 3)), x, y, ?_, ?_⟩
      · rw [← hxy]; exact (List.take_append_drop _ _).symm
      · simp only [List.length_take]; omega
    have hgetb1 : b.getD (3 * (b.length / 3)) 0 = a1 := by
      rw [← hlen1, hsplit, List.getD_append_right _ _ _ _ (le_refl _)]
      simp
    have hgetb2 : b.getD (3 * (b.length / 3) + 1) 0 = a2 := by
      rw [← hlen1, hsplit, List.getD_append_right _ _ _ _ (by omega)]
      simp [Nat.add_sub_cancel_left]
    simp only [fio_base64_encode_internal, hmd2]
    rw [if_pos (by decide : (2:Nat) ≠ 0), if_pos (by decide : (2:Nat) ≠ 0),
      if_pos (trivial : True)]
    have hc1 : (↑((b.length / 3 + 1) * 4) : Int) = 4 * ↑(b.length / 3) + 4 := by
      push_cast; ring
    have hc2 : (↑b.length : Int) = 3 * ↑(b.length / 3) + 2 := by
      have : b.length = 3 * (b.length / 3) + 2 := by omega
      exact_mod_cast congrArg (Nat.cast : Nat → Int) this
    rw [hc1, hc2]
    set G : Int := (↑(b.length / 3) : Int) with hG
    have htmp2 : rd (upd mem (t + (4 * G + 4)) 0) (d + (3 * G + 2) - 1) = a2 := by
      rw [rd, upd_ne _ _ _ _ (by omega)]
      have h1 : d + (3 * G + 2) - 1 = d + ((3 * (b.length / 3) + 1 : Nat) : Int) := by
        rw [hG]; push_cast; ring
      rw [h1, H (3 * (b.length / 3) + 1) (by omega), hgetb2]
    have htmp1 : rd (upd mem (t + (4 * G + 4)) 0) (d + (3 * G + 2) - 2) = a1 := by
      rw [rd, upd_ne _ _ _ _ (by omega)]
      have h1 : d + (3 * G + 2) - 2 = d + ((3 * (b.length / 3) : Nat) : Int) := by
        rw [hG]; push_cast; ring
      rw [h1, H (3 * (b.length / 3)) (by omega), hgetb1]
    rw [htmp1, htmp2]
    set m0 := upd mem (t + (4 * G + 4)) 0 with hm0
    set mT := upd (upd (upd (upd m0 (t + (4 * G + 4) - 1) 61)
      (t + (4 * G + 4) - 2) (etbl tbl ((a2 &&& 15) <<< 2)))
      (t + (4 * G + 4) - 3) (etbl tbl ((a1 &&& 3) <<< 4 ||| (a2 >>> 4) &&& 15)))
      (t + (4 * G + 4) - 4) (etbl tbl ((a1 >>> 2) &&& 63)) with hmT
    have hmTeq : ∀ j : Int, (j < t + 4 * G ∨ t + 4 * G + 4 < j) → mT j = mem j := by
      intro j hj
      rw [hmT, upd_ne _ _ _ _ (by omega), upd_ne _ _ _ _ (by omega),
        upd_ne _ _ _ _ (by omega), upd_ne _ _ _ _ (by omega), hm0,
        upd_ne _ _ _ _ (by omega)]
    have H1 : ∀ j : Nat, j < 3 * (b.length / 3) → mT (d + j) % 256 = bs1.getD j 0 := by
      intro j hj
      rw [hmTeq _ (Or.inl (by omega)), H j (by omega), hsplit,
        List.getD_append _ _ _ _ (by omega)]
    have hws : t + (4 * G + 4) - 1 - 4 = t + 4 * G - 1 := by ring
    have hrs : d + (3 * G + 2) - 1 - ((2:Nat) : Int) = d + 3 * G - 1 := by
      push_cast; ring
    rw [hws, hrs]
    have hrun := encLoop_run tbl (b.length / 3) bs1 mT t d hlen1 hdt H1 i
    rw [← hG] at hrun
    rw [hrun]
    have hsieq : (4 * ((b.length + 2) / 3) : Nat) = 4 * (b.length / 3) + 4 := by omega
    rw [hsieq]
    have hcast : (↑(4 * (b.length / 3) + 4) : Int) = 4 * G + 4 := by
      rw [hG]; push_cast; ring
    rw [hcast]
    have hepl : (encPure tbl bs1).length = 4 * (b.length / 3) := by
      rw [encPure_length, hlen1]; omega
    have hfull : encPure tbl b = encPure tbl bs1 ++
        [etbl tbl ((a1 >>> 2) &&& 63), etbl tbl ((a1 &&& 3) <<< 4 ||| (a2 >>> 4) &&& 15),
         etbl tbl ((a2 &&& 15) <<< 2), 61] := by
      rw [hsplit, encPure_append tbl bs1 [a1, a2] (by omega)]
      simp only [encPure]
    by_cases h1 : t ≤ i ∧ i < t + 4 * G
    · rw [if_pos h1, if_pos (by omega), hfull,
        List.getD_append _ _ _ _ (by rw [hepl]; omega)]
    · rw [if_neg h1]
      by_cases h2 : t ≤ i ∧ i < t + 4 * G + 4
      · rw [if_pos (by omega), hfull,
          List.getD_append_right _ _ _ _ (by rw [hepl]; omega), hepl]
        have hi4 : i = t + 4*G ∨ i = t + 4*G + 1 ∨ i = t + 4*G + 2 ∨
            i = t + 4*G + 3 := by omega
        rcases hi4 with hi | hi | hi | hi <;> subst hi <;> rw [hmT]
        · rw [show t + 4*G = t + (4*G + 4) - 4 from by ring, upd_self]
          have hx0 : ((t + (4*G+4) - 4 - t).toNat - 4 * (b.length / 3)) = 0 := by omega
          rw [hx0]
          simp
        · rw [upd_ne _ _ _ _ (by omega),
            show t + 4*G + 1 = t + (4*G + 4) - 3 from by ring, upd_self]
          have hx1 : ((t + (4*G+4) - 3 - t).toNat - 4 * (b.length / 3)) = 1 := by omega
          rw [hx1]
          simp
        · rw [upd_ne _ _ _ _ (by omega), upd_ne _ _ _ _ (by omega),
            show t + 4*G + 2 = t + (4*G + 4) - 2 from by ring, upd_self]
          have hx2 : ((t + (4*G+4) - 2 - t).toNat - 4 * (b.length / 3)) = 2 := by omega
          rw [hx2]
          simp
        · rw [upd_ne _ _ _ _ (by omega), upd_ne _ _ _ _ (by omega),
            upd_ne _ _ _ _ (by omega),
            show t + 4*G + 3 = t + (4*G + 4) - 1 from by ring, upd_self]
          have hx3 : ((t + (4*G+4) - 1 - t).toNat - 4 * (b.length / 3)) = 3 := by omega
          rw [hx3]
          simp
      · rw [if_neg (by omega)]
        by_cases h3 : i = t + 4 * G + 4
        · rw [if_pos (by omega), h3, hmT,
            upd_ne _ _ _ _ (by omega), upd_ne _ _ _ _ (by omega),
            upd_ne _ _ _ _ (by omega), upd_ne _ _ _ _ (by omega), hm0,
            show t + 4*G + 4 = t + (4*G + 4) from by ring, upd_self]
        · rw [if_neg (by omega)]
          exact hmTeq i (by omega)

end FioBase64

namespace FioBase64

/-! ### Reading canonical list memories, and symbol-value bounds -/

theorem listMem_read (l : List Nat) (hb : ∀ x ∈ l, x < 256) (j : Nat)
    (hj : j < l.length) : listMem l j % 256 = l.getD j 0 := by
  have hmem : l.getD j 0 ∈ l := by
    rw [List.getD_eq_getElem l 0 hj]
    exact List.getElem_mem hj
  simp only [listMem]
  rw [if_pos ⟨Int.natCast_nonneg j, by exact_mod_cast hj⟩]
  simp only [Int.toNat_natCast]
  exact Nat.mod_eq_of_lt (hb _ hmem)

theorem sym1_lt (t1 : Nat) : (t1 >>> 2) &&& 63 < 64 :=
  lt_of_le_of_lt Nat.and_le_right (by norm_num)

theorem sym4_lt (t3 : Nat) : t3 &&& 63 < 64 :=
  lt_of_le_of_lt Nat.and_le_right (by norm_num)

theorem sym2_lt (t1 t2 : Nat) (h1 : t1 < 256) (h2 : t2 < 256) :
    (t1 &&& 3) <<< 4 ||| (t2 >>> 4) &&& 15 < 64 := by
  rw [and3 t1 h1, shr4_and t2 h2, shl4 (t1 % 4) (by omega),
    or_small4 _ _ (by omega) (by omega)]
  omega

theorem sym3_lt (t2 t3 : Nat) (h2 : t2 < 256) (h3 : t3 < 256) :
    (t2 &&& 15) <<< 2 ||| (t3 >>> 6) &&& 3 < 64 := by
  rw [and15 t2 h2, shr6_and t3 h3, shl2 (t2 % 16) (by omega),
    or_small2 _ _ (by omega) (by omega)]
  omega

theorem sym2p_lt (t1 : Nat) (h1 : t1 < 256) : (t1 &&& 3) <<< 4 < 64 := by
  rw [and3 t1 h1, shl4 (t1 % 4) (by omega)]
  omega

theorem sym3p_lt (t2 : Nat) (h2 : t2 < 256) : (t2 &&& 15) <<< 2 < 64 := by
  rw [and15 t2 h2, shl2 (t2 % 16) (by omega)]
  omega

/-- Every character the encoder emits is an alphabet character of a 6-bit
symbol value, or the padding byte 61. -/
theorem encPure_shape (tbl : List Nat) :
    ∀ b : List Nat, (∀ x ∈ b, x < 256) →
      ∀ y ∈ encPure tbl b, (∃ v, v < 64 ∧ y = etbl tbl v) ∨ y = 61
  | [], _, y, hy => by simp [encPure] at hy
  | [t1], hb, y, hy => by
    have h1 : t1 < 256 := hb t1 (by simp)
    simp only [encPure, List.mem_cons, List.mem_singleton] at hy
    rcases hy with rfl | rfl | rfl | hy
    · exact Or.inl ⟨_, sym1_lt t1, rfl⟩
    · exact Or.inl ⟨_, sym2p_lt t1 h1, rfl⟩
    · exact Or.inr rfl
    · rcases hy with hy | hy
      · exact Or.inr hy
      · simp at hy
  | [t1, t2], hb, y, hy => by
    have h1 : t1 < 256 := hb t1 (by simp)
    have h2 : t2 < 256 := hb t2 (by simp)
    simp only [encPure, List.mem_cons, List.mem_singleton] at hy
    rcases hy with rfl | rfl | rfl | hy
    · exact Or.inl ⟨_, sym1_lt t1, rfl⟩
    · exact Or.inl ⟨_, sym2_lt t1 t2 h1 h2, rfl⟩
    · exact Or.inl ⟨_, sym3p_lt t2 h2, rfl⟩
    · rcases hy with hy | hy
      · exact Or.inr hy
      · simp at hy
  | t1 :: t2 :: t3 :: rest, hb, y, hy => by
    have h1 : t1 < 256 := hb t1 (by simp)
    have h2 : t2 < 256 := hb t2 (by simp)
    have h3 : t3 < 256 := hb t3 (by simp)
    simp only [encPure, List.mem_cons] at hy
    rcases hy with rfl | rfl | rfl | rfl | hy
    · exact Or.inl ⟨_, sym1_lt t1, rfl⟩
    · exact Or.inl ⟨_, sym2_lt t1 t2 h1 h2, rfl⟩
    · exact Or.inl ⟨_, sym3_lt t2 t3 h2 h3, rfl⟩
    · exact Or.inl ⟨_, sym4_lt t3, rfl⟩
    · exact encPure_shape tbl rest (fun x hx => hb x (by simp [hx])) y hy

/-- Alphabet characters of both tables are bytes below 128. -/
theorem encPure_lt256 (tbl : List Nat) (htbl : ∀ v, v < 64 → etbl tbl v < 128)
    (b : List Nat) (hb : ∀ x ∈ b, x < 256) : ∀ y ∈ encPure tbl b, y < 256 := by
  intro y hy
  rcases encPure_shape tbl b hb y hy with ⟨v, hv, rfl⟩ | rfl
  · exact lt_trans (htbl v hv) (by norm_num)
  · norm_num

/-- The output region of any encoder run, read back as a list, is the pure
encoding. -/
theorem encode_extract_eq (tbl : List Nat) (htbl : ∀ v, v < 64 → etbl tbl v < 128)
    (b : List Nat) (hb : ∀ x ∈ b, x < 256) (mem : Int → Nat) (t d : Int)
    (hdt : d ≤ t)
    (H : ∀ j : Nat, j < b.length → mem (d + j) % 256 = b.getD j 0) :
    (List.range (fio_base64_encode_internal mem t d b.length tbl).2).map
        (fun k : Nat => (fio_base64_encode_internal mem t d b.length tbl).1 (t + (k : Int)))
      = encPure tbl b := by
  have hrun := encode_internal_run tbl b mem t d hdt H
  apply List.ext_getElem
  · simp only [List.length_map, List.length_range, hrun.1, encPure_length]
  · intro k hk1 hk2
    simp only [List.getElem_map, List.getElem_range]
    simp only [List.length_map, List.length_range, hrun.1] at hk1
    have := hrun.2 (t + k)
    rw [if_pos ⟨by omega, by
      have : (k : Int) < (4 * ((b.length + 2) / 3) : Nat) := by exact_mod_cast hk1
      omega⟩] at this
    rw [this]
    have hidx : ((t + (k : Int) - t)).toNat = k := by omega
    rw [hidx]
    have hlt : (encPure tbl b).getD k 0 < 256 := by
      apply encPure_lt256 tbl htbl b hb
      rw [List.getD_eq_getElem _ 0 hk2]
      exact List.getElem_mem hk2
    rw [Nat.mod_eq_of_lt hlt, List.getD_eq_getElem _ 0 hk2]

/-- The output-list extraction of the encoder run is the pure encoding. -/
theorem encodeBytes_eq_encPure (tbl : List Nat)
    (htbl : ∀ v, v < 64 → etbl tbl v < 128)
    (b : List Nat) (hb : ∀ x ∈ b, x < 256) :
    fio_base64_encodeBytes tbl b = encPure tbl b := by
  have H0 : ∀ j : Nat, j < b.length →
      listMem b ((0 : Int) + j) % 256 = b.getD j 0 := by
    intro j hj
    rw [show ((0 : Int) + j) = (j : Int) from by ring]
    exact listMem_read b hb j hj
  exact encode_extract_eq tbl htbl b hb (listMem b) (b.length : Int) 0
    (Int.natCast_nonneg _) H0

/-- The final characters of an encoding, by `len mod 3`: a symbol character
and zero, one, or two padding bytes. -/
theorem encPure_tail_chars (tbl : List Nat) (b : List Nat)
    (hb : ∀ x ∈ b, x < 256) (hne : b ≠ []) :
    ∃ C u1 u2 u3, encPure tbl b = C ++ [u1, u2, u3] ∧
      (b.length % 3 = 0 →
        (∃ v, v < 64 ∧ u1 = etbl tbl v) ∧ (∃ v, v < 64 ∧ u2 = etbl tbl v) ∧
        (∃ v, v < 64 ∧ u3 = etbl tbl v)) ∧
      (b.length % 3 = 1 → (∃ v, v < 64 ∧ u1 = etbl tbl v) ∧ u2 = 61 ∧ u3 = 61) ∧
      (b.length % 3 = 2 →
        (∃ v, v < 64 ∧ u1 = etbl tbl v) ∧ (∃ v, v < 64 ∧ u2 = etbl tbl v) ∧ u3 = 61) := by
  have hlen0 : b.length ≠ 0 := fun h => hne (List.length_eq_zero.mp h)
  have hmd3 : b.length % 3 = 0 ∨ b.length % 3 = 1 ∨ b.length % 3 = 2 := by omega
  rcases hmd3 with hmd | hmd | hmd
  · obtain ⟨u, rest, hsplit, hlenu, hlenr⟩ :
        ∃ u rest, b = u ++ rest ∧ u.length = b.length - 3 ∧ rest.length = 3 := by
      refine ⟨b.take (b.length - 3), b.drop (b.length - 3),
        (List.take_append_drop _ _).symm, ?_, ?_⟩
      · simp only [List.length_take]; omega
      · simp only [List.length_drop]; omega
    obtain ⟨t1, t2, t3, rfl⟩ := List.length_eq_three.mp hlenr
    have h1 : t1 < 256 := hb t1 (by rw [hsplit]; simp)
    have h2 : t2 < 256 := hb t2 (by rw [hsplit]; simp)
    have h3 : t3 < 256 := hb t3 (by rw [hsplit]; simp)
    refine ⟨encPure tbl u ++ [etbl tbl ((t1 >>> 2) &&& 63)],
      etbl tbl ((t1 &&& 3) <<< 4 ||| (t2 >>> 4) &&& 15),
      etbl tbl ((t2 &&& 15) <<< 2 ||| (t3 >>> 6) &&& 3),
      etbl tbl (t3 &&& 63), ?_, ?_, ?_, ?_⟩
    · rw [hsplit, encPure_append tbl u [t1, t2, t3] (by omega)]
      simp [encPure]
    · intro _
      exact ⟨⟨_, sym2_lt t1 t2 h1 h2, rfl⟩, ⟨_, sym3_lt t2 t3 h2 h3, rfl⟩,
        ⟨_, sym4_lt t3, rfl⟩⟩
    · intro h
      omega
    · intro h
      omega
  · obtain ⟨u, rest, hsplit, hlenu, hlenr⟩ :
        ∃ u rest, b = u ++ rest ∧ u.length = b.length - 1 ∧ rest.length = 1 := by
      refine ⟨b.take (b.length - 1), b.drop (b.length - 1),
        (List.take_append_drop _ _).symm, ?_, ?_⟩
      · simp only [List.length_take]; omega
      · simp only [List.length_drop]; omega
    obtain ⟨t1, rfl⟩ := List.length_eq_one.mp hlenr
    have h1 : t1 < 256 := hb t1 (by rw [hsplit]; simp)
    refine ⟨encPure tbl u ++ [etbl tbl ((t1 >>> 2) &&& 63)],
      etbl tbl ((t1 &&& 3) <<< 4), 61, 61, ?_, ?_, ?_, ?_⟩
    · rw [hsplit, encPure_append tbl u [t1] (by omega)]
      simp [encPure]
    · intro h
      omega
    · intro _
      exact ⟨⟨_, sym2p_lt t1 h1, rfl⟩, rfl, rfl⟩
    · intro h
      omega
  · obtain ⟨u, rest, hsplit, hlenu, hlenr⟩ :
        ∃ u rest, b = u ++ rest ∧ u.length = b.length - 2 ∧ rest.length = 2 := by
      refine ⟨b.take (b.length - 2), b.drop (b.length - 2),
        (List.take_append_drop _ _).symm, ?_, ?_⟩
      · simp only [List.length_take]; omega
      · simp only [List.length_drop]; omega
    obtain ⟨t1, t2, rfl⟩ := List.length_eq_two.mp hlenr
    have h1 : t1 < 256 := hb t1 (by rw [hsplit]; simp)
    have h2 : t2 < 256 := hb t2 (by rw [hsplit]; simp)
    refine ⟨encPure tbl u ++ [etbl tbl ((t1 >>> 2) &&& 63)],
      etbl tbl ((t1 &&& 3) <<< 4 ||| (t2 >>> 4) &&& 15),
      etbl tbl ((t2 &&& 15) <<< 2), 61, ?_, ?_, ?_, ?_⟩
    · rw [hsplit, encPure_append tbl u [t1, t2] (by omega)]
      simp [encPure]
    · intro h
      omega
    · intro h
      omega
    · intro _
      exact ⟨⟨_, sym2_lt t1 t2 h1 h2, rfl⟩, ⟨_, sym3p_lt t2 h2, rfl⟩, rfl⟩

end FioBase64

namespace FioBase64

/-! ### Claim C7: encode length and padding law -/

theorem etbl_alpha_ne_61 (tbl : List Nat)
    (halpha : tbl = base64_encodes_original ∨ tbl = base64_encodes_url) :
    ∀ v, v < 64 → etbl tbl v ≠ 61 := by
  rcases halpha with rfl | rfl
  · exact etbl_original_ne_61
  · exact etbl_url_ne_61

theorem etbl_alpha_lt (tbl : List Nat)
    (halpha : tbl = base64_encodes_original ∨ tbl = base64_encodes_url) :
    ∀ v, v < 64 → etbl tbl v < 128 := by
  rcases halpha with rfl | rfl
  · exact etbl_original_lt
  · exact etbl_url_lt

/-- C7: for every byte sequence and either alphabet, the encoder returns and
emits exactly `4 * ceil(len/3)` characters, and the number of trailing `'='`
(byte 61) characters is 0, 2, 1 according to `len mod 3` being 0, 1, 2. -/
theorem c7_encode_length_padding (tbl : List Nat)
    (halpha : tbl = base64_encodes_original ∨ tbl = base64_encodes_url)
    (b : List Nat) (hb : ∀ x ∈ b, x < 256) :
    (fio_base64_encode_internal (listMem b) (b.length : Int) 0 b.length tbl).2 =
      4 * ((b.length + 2) / 3) ∧
    (fio_base64_encodeBytes tbl b).length = 4 * ((b.length + 2) / 3) ∧
    ((fio_base64_encodeBytes tbl b).reverse.takeWhile (fun x => x == 61)).length =
      (if b.length % 3 = 0 then 0 else if b.length % 3 = 1 then 2 else 1) := by
  have htbl := etbl_alpha_lt tbl halpha
  have hne61 := etbl_alpha_ne_61 tbl halpha
  have henc := encodeBytes_eq_encPure tbl htbl b hb
  have H0 : ∀ j : Nat, j < b.length →
      listMem b ((0 : Int) + j) % 256 = b.getD j 0 := by
    intro j hj
    rw [show ((0 : Int) + j) = (j : Int) from by ring]
    exact listMem_read b hb j hj
  refine ⟨(encode_internal_run tbl b (listMem b) (b.length : Int) 0
    (Int.natCast_nonneg _) H0).1, by rw [henc, encPure_length], ?_⟩
  rw [henc]
  by_cases hb0 : b = []
  · subst hb0
    simp [encPure]
  · obtain ⟨C, u1, u2, u3, hsp, hm0, hm1, hm2⟩ := encPure_tail_chars tbl b hb hb0
    rw [hsp, show C ++ [u1, u2, u3] = C ++ [u1] ++ [u2] ++ [u3] from by simp,
      List.reverse_append, List.reverse_append, List.reverse_append]
    simp only [List.reverse_cons, List.reverse_nil, List.nil_append, List.cons_append,
      List.singleton_append]
    rcases (by omega : b.length % 3 = 0 ∨ b.length % 3 = 1 ∨ b.length % 3 = 2)
      with h | h | h
    · obtain ⟨hv1, hv2, ⟨v3, hv3, e3⟩⟩ := hm0 h
      rw [if_pos h, e3, List.takeWhile_cons_of_neg]
      · simp
      · simp [hne61 v3 hv3]
    · obtain ⟨⟨v1, hv1, e1⟩, e2, e3⟩ := hm1 h
      rw [if_neg (by omega), if_pos h, e1, e2, e3, List.takeWhile_cons_of_pos (by simp),
        List.takeWhile_cons_of_pos (by simp), List.takeWhile_cons_of_neg]
      · simp
      · simp [hne61 v1 hv1]
    · obtain ⟨hv1, ⟨v2, hv2, e2⟩, e3⟩ := hm2 h
      rw [if_neg (by omega), if_neg (by omega), e2, e3,
        List.takeWhile_cons_of_pos (by simp), List.takeWhile_cons_of_neg]
      · simp
      · simp [hne61 v2 hv2]

/-- C7 witness: a one-byte input yields 4 returned characters with two
trailing pad bytes. -/
theorem c7_encode_length_padding_witness :
    (∀ x ∈ [102], x < 256) ∧
    ((fio_base64_encodeBytes base64_encodes_original [102]).reverse.takeWhile
      (fun x => x == 61)).length = 2 :=
  ⟨by decide, (c7_encode_length_padding base64_encodes_original (Or.inl rfl)
    [102] (by decide)).2.2⟩

/-! ### Claim C3: the encoder does write a byte at output index size -/

/-- Memory with "foo" at offsets 0..2 and the byte 7 everywhere else. -/
def c3mem : Int → Nat := fun i => if 0 ≤ i ∧ i < 3 then [102, 111, 111].getD i.toNat 0 else 7

/-- C3 counterexample: encoding 3 bytes (returned size 4) overwrites the
output cell at index 4 = 4*ceil(3/3) with a zero byte — the `writer[1] = 0`
of line 71 — so the claim that no byte at or past index `4*ceil(len/3)` is
written is false. -/
theorem c3_counterexample :
    (fio_base64_encode c3mem 3 0 3).1 (3 + 4) = 0 ∧ c3mem (3 + 4) = 7 := by decide

/-- C3 amended: the encoder writes the `4*ceil(len/3)` returned characters at
output indices below the returned size, writes one zero byte at index exactly
`4*ceil(len/3)`, and leaves every cell below the target or above
`target + 4*ceil(len/3)` unchanged. -/
theorem c3_amended_write_extent (tbl : List Nat) (b : List Nat) (mem : Int → Nat)
    (t d : Int) (hdt : d ≤ t)
    (H : ∀ j : Nat, j < b.length → mem (d + j) % 256 = b.getD j 0) :
    (fio_base64_encode_internal mem t d b.length tbl).2 = 4 * ((b.length + 2) / 3) ∧
    (fio_base64_encode_internal mem t d b.length tbl).1
      (t + (4 * ((b.length + 2) / 3) : Nat)) = 0 ∧
    ∀ i : Int, (i < t ∨ t + (4 * ((b.length + 2) / 3) : Nat) < i) →
      (fio_base64_encode_internal mem t d b.length tbl).1 i = mem i := by
  obtain ⟨h1, h2⟩ := encode_internal_run tbl b mem t d hdt H
  refine ⟨h1, ?_, ?_⟩
  · rw [h2 _, if_neg (by omega), if_pos rfl]
  · intro i hi
    rw [h2 i, if_neg (by omega), if_neg (by omega)]

/-- C3 amended witness at the counterexample layout. -/
theorem c3_amended_write_extent_witness :
    ((0 : Int) ≤ 3 ∧ ∀ j : Nat, j < 3 → c3mem (0 + j) % 256 = [102, 111, 111].getD j 0) ∧
    (fio_base64_encode_internal c3mem 3 0 3 base64_encodes_original).1
      (3 + ((4 * (([102, 111, 111].length + 2) / 3) : Nat) : Int)) = 0 :=
  ⟨⟨by decide, by decide⟩,
    (c3_amended_write_extent base64_encodes_original [102, 111, 111] c3mem 3 0
      (by decide) (by decide)).2.1⟩

/-! ### Claim C8: in-place encoding equals disjoint-buffer encoding -/

/-- C8: running the encoder with the output buffer aliased to the input
buffer (`target = data = 0`) produces byte-for-byte the same output and the
same return value as the disjoint-buffer run `fio_base64_encodeBytes`. -/
theorem c8_inplace_equivalence (tbl : List Nat)
    (halpha : tbl = base64_encodes_original ∨ tbl = base64_encodes_url)
    (b : List Nat) (hb : ∀ x ∈ b, x < 256) :
    (List.range (fio_base64_encode_internal (listMem b) 0 0 b.length tbl).2).map
        (fun k : Nat =>
          (fio_base64_encode_internal (listMem b) 0 0 b.length tbl).1 (k : Int))
      = fio_base64_encodeBytes tbl b ∧
    (fio_base64_encode_internal (listMem b) 0 0 b.length tbl).2 =
      (fio_base64_encode_internal (listMem b) (b.length : Int) 0 b.length tbl).2 := by
  have htbl := etbl_alpha_lt tbl halpha
  have H0 : ∀ j : Nat, j < b.length →
      listMem b ((0 : Int) + j) % 256 = b.getD j 0 := by
    intro j hj
    rw [show ((0 : Int) + j) = (j : Int) from by ring]
    exact listMem_read b hb j hj
  constructor
  · rw [encodeBytes_eq_encPure tbl htbl b hb]
    have := encode_extract_eq tbl htbl b hb (listMem b) 0 0 (le_refl 0) H0
    rw [← this]
    apply List.map_congr_left
    intro k _
    rw [zero_add]
  · rw [(encode_internal_run tbl b (listMem b) 0 0 (le_refl 0) H0).1,
      (encode_internal_run tbl b (listMem b) (b.length : Int) 0
        (Int.natCast_nonneg _) H0).1]

/-- C8 witness at the byte string "fooba". -/
theorem c8_inplace_equivalence_witness :
    (∀ x ∈ [102, 111, 111, 98, 97], x < 256) ∧
    (fio_base64_encode_internal (listMem [102, 111, 111, 98, 97]) 0 0 5
        base64_encodes_original).2 =
      (fio_base64_encode_internal (listMem [102, 111, 111, 98, 97]) 5 0 5
        base64_encodes_original).2 :=
  ⟨by decide, (c8_inplace_equivalence base64_encodes_original (Or.inl rfl)
    [102, 111, 111, 98, 97] (by decide)).2⟩

end FioBase64

namespace FioBase64

/-! ### Decoder skip-loop lemmas -/

theorem rd_lt (mem : Int → Nat) (i : Int) : rd mem i < 256 :=
  Nat.mod_lt _ (by norm_num)

theorem firstV_le (mem : Int → Nat) : ∀ b c, firstV mem c b ≤ b
  | 0, c => by simp [firstV]
  | b+1, c => by
    simp only [firstV]
    split_ifs with h
    · omega
    · have := firstV_le mem b (c+1)
      omega

/-- A skip loop advances the cursor by, and lowers the budget by, the length
of the run of skippable bytes at the cursor. -/
theorem skipAdv_eq_firstV (mem : Int → Nat) :
    ∀ b c, skipAdv mem c b = (c + firstV mem c b, b - firstV mem c b)
  | 0, c => by simp [skipAdv, firstV]
  | b+1, c => by
    simp only [skipAdv, firstV]
    split_ifs with h
    · simp
    · rw [skipAdv_eq_firstV mem b (c+1)]
      simp only [Prod.mk.injEq]
      omega

theorem firstV_invalid (mem : Int → Nat) :
    ∀ b c j, j < firstV mem c b → bdecode (rd mem ((c + j : Nat) : Int)) = 0
  | 0, c, j, h => by simp [firstV] at h
  | b+1, c, j, h => by
    simp only [firstV] at h
    split_ifs at h with hv
    · omega
    · push_neg at hv
      match j with
      | 0 => simpa using hv
      | j+1 =>
        have := firstV_invalid mem b (c+1) j (by omega)
        rw [show c + (j+1) = (c+1) + j from by omega]
        exact this

theorem firstV_valid (mem : Int → Nat) :
    ∀ b c, firstV mem c b < b →
      bdecode (rd mem ((c + firstV mem c b : Nat) : Int)) ≠ 0
  | 0, c, h => by simp [firstV] at h
  | b+1, c, h => by
    simp only [firstV] at h ⊢
    split_ifs at h ⊢ with hv
    · simpa using hv
    · push_neg at hv
      have := firstV_valid mem b (c+1) (by omega)
      rw [show c + (firstV mem (c+1) b + 1) = (c+1) + firstV mem (c+1) b from by omega]
      exact this

/-- The skip-loop budget `base64_len` over-counts the remaining window while
a group's `tmp` reads are pending; as long as a symbol byte remains inside
the true window, the loop stops at it and the budget never matters. -/
theorem firstV_congr (mem : Int → Nat) :
    ∀ L c, (∃ j, j < L ∧ bdecode (rd mem ((c + j : Nat) : Int)) ≠ 0) →
      ∀ B, L ≤ B → firstV mem c B = firstV mem c L
  | 0, c, h, B, hB => by
    obtain ⟨j, hj, _⟩ := h
    omega
  | L+1, c, h, B, hB => by
    obtain ⟨B2, rfl⟩ : ∃ B2, B = B2 + 1 := ⟨B - 1, by omega⟩
    simp only [firstV]
    split_ifs with hv
    · rfl
    · push_neg at hv
      obtain ⟨j, hj, hval⟩ := h
      have hj0 : j ≠ 0 := by
        rintro rfl
        simp only [Nat.add_zero] at hval
        exact hval hv
      obtain ⟨j2, rfl⟩ : ∃ j2, j = j2 + 1 := ⟨j - 1, by omega⟩
      have hex : ∃ jx, jx < L ∧ bdecode (rd mem (((c+1) + jx : Nat) : Int)) ≠ 0 := by
        refine ⟨j2, by omega, ?_⟩
        rw [show (c+1) + j2 = c + (j2+1) from by omega]
        exact hval
      rw [firstV_congr mem L (c+1) hex B2 (by omega)]

/-! ### Window and symbol-stream lemmas -/

theorem win_add (mem : Int → Nat) (c k m : Nat) :
    win mem c (k + m) = win mem c k ++ win mem (c + k) m := by
  simp only [win]
  rw [List.range_add, List.map_append, List.map_map]
  congr 1
  apply List.map_congr_left
  intro j hj
  simp only [Function.comp_apply]
  congr 2
  omega

theorem win_split (mem : Int → Nat) (c k b : Nat) (h : k ≤ b) :
    win mem c b = win mem c k ++ win mem (c + k) (b - k) := by
  have := win_add mem c k (b - k)
  rw [show k + (b - k) = b from by omega] at this
  exact this

theorem vSyms_zero (mem : Int → Nat) (c : Nat) : vSyms mem c 0 = [] := by
  simp [vSyms, win]

theorem vSyms_length_le (mem : Int → Nat) (c b : Nat) : (vSyms mem c b).length ≤ b := by
  have h1 := List.length_filter_le (fun x => bdecode x != 0) (win mem c b)
  simp only [vSyms]
  refine le_trans h1 ?_
  simp [win]

theorem vSyms_split (mem : Int → Nat) (c k b : Nat) (h : k ≤ b) :
    vSyms mem c b = vSyms mem c k ++ vSyms mem (c + k) (b - k) := by
  simp only [vSyms]
  rw [win_split mem c k b h, List.filter_append]

theorem vSyms_nil_of_invalid (mem : Int → Nat) (c b : Nat)
    (h : ∀ j, j < b → bdecode (rd mem ((c + j : Nat) : Int)) = 0) :
    vSyms mem c b = [] := by
  simp only [vSyms]
  rw [List.filter_eq_nil_iff]
  intro a ha
  simp only [win, List.mem_map, List.mem_range] at ha
  obtain ⟨j, hj, rfl⟩ := ha
  have hz := h j hj
  rw [show ((c + j : Nat) : Int) = (c : Int) + (j : Int) from by push_cast; ring] at hz
  simp [hz]

theorem vSyms_cons (mem : Int → Nat) (c b : Nat) (hb : 0 < b)
    (hv : bdecode (rd mem c) ≠ 0) :
    vSyms mem c b = rd mem c :: vSyms mem (c + 1) (b - 1) := by
  rw [vSyms_split mem c 1 b hb]
  have h1 : vSyms mem c 1 = [rd mem c] := by
    have hw : win mem c 1 = [rd mem c] := by
      simp only [win, show List.range 1 = [0] from rfl, List.map_cons, List.map_nil,
        Nat.add_zero]
    simp only [vSyms, hw]
    simp [List.filter_cons, hv]
  rw [h1, List.singleton_append]

theorem vSyms_firstV (mem : Int → Nat) (c b : Nat) :
    vSyms mem c b = vSyms mem (c + firstV mem c b) (b - firstV mem c b) := by
  rw [vSyms_split mem c (firstV mem c b) b (firstV_le mem b c),
    vSyms_nil_of_invalid mem c (firstV mem c b)
      (fun j hj => firstV_invalid mem b c j hj)]
  simp

theorem firstV_lt_of_vSyms_ne (mem : Int → Nat) (c b : Nat)
    (h : vSyms mem c b ≠ []) : firstV mem c b < b := by
  by_contra h2
  push_neg at h2
  exact h (vSyms_nil_of_invalid mem c b
    (fun j hj => firstV_invalid mem b c j (by omega)))

/-! ### Entry skip loop -/

theorem topSkip_valid (mem : Int → Nat) (c : Nat) :
    ∀ b, bdecode (rd mem c) ≠ 0 → topSkip mem c b = b
  | 0, _ => rfl
  | b+1, h => by simp [topSkip, h]

theorem topSkip_invalid (mem : Int → Nat) (c : Nat) :
    ∀ b, bdecode (rd mem c) = 0 → topSkip mem c b = 0
  | 0, _ => rfl
  | b+1, h => by
    simp only [topSkip]
    rw [if_neg (by simp [h])]
    exact topSkip_invalid mem c b h

/-! ### Pure decode-side helpers -/

theorem decGroups_length : ∀ s : List Nat, (decGroups s).length = 3 * (s.length / 4)
  | [] => by simp [decGroups]
  | [_] => by simp [decGroups]
  | [_, _] => by simp [decGroups]
  | [_, _, _] => by simp [decGroups]
  | s1 :: s2 :: s3 :: s4 :: rest => by
    have := decGroups_length rest
    simp only [decGroups, List.length_cons, this]
    omega

theorem enumFrom_append : ∀ (A : List Nat) (o : Int) (B : List Nat),
    enumFrom o (A ++ B) = enumFrom o A ++ enumFrom (o + A.length) B
  | [], o, B => by simp [enumFrom]
  | x :: A, o, B => by
    show (o, x) :: enumFrom (o+1) (A ++ B)
        = ((o, x) :: enumFrom (o+1) A) ++ enumFrom (o + (((x :: A).length : Nat) : Int)) B
    rw [enumFrom_append A (o+1) B, List.cons_append,
      show ((((x :: A).length : Nat) : Int)) = ((A.length : Int) + 1) from by
        simp only [List.length_cons]; push_cast; ring,
      show o + ((A.length : Int) + 1) = o + 1 + (A.length : Int) from by ring]

end FioBase64

namespace FioBase64

theorem firstV_zero_of_valid (mem : Int → Nat) (c b : Nat) (hb : 0 < b)
    (hv : bdecode (rd mem c) ≠ 0) : firstV mem c b = 0 := by
  obtain ⟨b2, rfl⟩ : ∃ b2, b = b2 + 1 := ⟨b - 1, by omega⟩
  simp [firstV, hv]

/-- The decoder's main loop on a stream whose window holds a multiple of
four symbol characters (with the cursor on a symbol when anything remains):
it consumes the whole window, emits the three-byte groups of the symbol
stream, and falls through to the tail code with nothing left. -/
theorem mainLoopF_clean (mem : Int → Nat) (tj : Nat → Nat) :
    ∀ fuel b c o written ws, b ≤ fuel →
      4 ∣ (vSyms mem c b).length →
      (b ≠ 0 → bdecode (rd mem c) ≠ 0) →
      mainLoopF mem tj fuel c b o written ws =
        tailFin mem tj (c + b) 0 (o + 3 * ((vSyms mem c b).length / 4))
          (written + 3 * ((vSyms mem c b).length / 4))
          (ws ++ enumFrom o (decGroups (vSyms mem c b))) := by
  intro fuel
  induction fuel with
  | zero =>
    intro b c o written ws hle hdvd hcv
    have hb0 : b = 0 := by omega
    subst hb0
    rw [vSyms_zero]
    simp [mainLoopF, decGroups, enumFrom]
  | succ fuel ih =>
    intro b c o written ws hle hdvd hcv
    by_cases hb4 : b < 4
    · rcases Nat.eq_zero_or_pos b with hb0 | hb0
      · subst hb0
        rw [vSyms_zero]
        simp [mainLoopF, decGroups, enumFrom]
      · exfalso
        have h1 : vSyms mem c b = rd mem c :: vSyms mem (c+1) (b-1) :=
          vSyms_cons mem c b hb0 (hcv (by omega))
        have h2 := vSyms_length_le mem c b
        obtain ⟨k, hk⟩ := hdvd
        rw [h1] at hk h2
        simp only [List.length_cons] at hk h2
        omega
    · push_neg at hb4
      have hcv2 := hcv (by omega)
      have hV : vSyms mem c b = rd mem c :: vSyms mem (c+1) (b-1) :=
        vSyms_cons mem c b (by omega) hcv2
      obtain ⟨k, hk⟩ := hdvd
      have hlen1 : (vSyms mem (c+1) (b-1)).length = 4 * k - 1 := by
        rw [hV] at hk
        simp only [List.length_cons] at hk
        omega
      have hk1 : 1 ≤ k := by
        rw [hV] at hk
        simp only [List.length_cons] at hk
        omega
      have hne1 : vSyms mem (c+1) (b-1) ≠ [] := by
        intro h
        rw [h] at hlen1
        simp at hlen1
        omega
      set f2 := firstV mem (c+1) (b-1) with hf2
      have hf2lt : f2 < b - 1 := firstV_lt_of_vSyms_ne mem (c+1) (b-1) hne1
      have hv2 : bdecode (rd mem ((c + 1 + f2 : Nat) : Int)) ≠ 0 :=
        firstV_valid mem (b-1) (c+1) hf2lt
      have hVf2 : vSyms mem (c+1) (b-1) =
          rd mem ((c+1+f2 : Nat) : Int) :: vSyms mem (c+1+f2+1) (b-1-f2-1) := by
        rw [vSyms_firstV mem (c+1) (b-1), ← hf2]
        exact vSyms_cons mem (c+1+f2) (b-1-f2) (by omega) hv2
      have hcg2 : firstV mem (c+1) b = f2 := by
        rw [hf2]
        exact firstV_congr mem (b-1) (c+1) ⟨f2, hf2lt, hv2⟩ b (by omega)
      have hs2 : skipAdv mem (c+1) b = (c+1+f2, b - f2) := by
        rw [skipAdv_eq_firstV mem b (c+1), hcg2]
      have hlen2 : (vSyms mem (c+1+f2+1) (b-1-f2-1)).length = 4 * k - 2 := by
        rw [hVf2] at hlen1
        simp only [List.length_cons] at hlen1
        omega
      have hne2 : vSyms mem (c+1+f2+1) (b-1-f2-1) ≠ [] := by
        intro h
        rw [h] at hlen2
        simp at hlen2
        omega
      set f3 := firstV mem (c+1+f2+1) (b-1-f2-1) with hf3
      have hf3lt : f3 < b-1-f2-1 := firstV_lt_of_vSyms_ne mem (c+1+f2+1) (b-1-f2-1) hne2
      have hv3 : bdecode (rd mem ((c+1+f2+1 + f3 : Nat) : Int)) ≠ 0 :=
        firstV_valid mem (b-1-f2-1) (c+1+f2+1) hf3lt
      have hVf3 : vSyms mem (c+1+f2+1) (b-1-f2-1) =
          rd mem ((c+1+f2+1+f3 : Nat) : Int) ::
            vSyms mem (c+1+f2+1+f3+1) (b-1-f2-1-f3-1) := by
        rw [vSyms_firstV mem (c+1+f2+1) (b-1-f2-1), ← hf3]
        exact vSyms_cons mem (c+1+f2+1+f3) (b-1-f2-1-f3) (by omega) hv3
      have hcg3 : firstV mem (c+1+f2+1) (b - f2) = f3 := by
        rw [hf3]
        exact firstV_congr mem (b-1-f2-1) (c+1+f2+1) ⟨f3, hf3lt, hv3⟩ (b - f2) (by omega)
      have hs3 : skipAdv mem (c+1+f2+1) (b-f2) = (c+1+f2+1+f3, b-f2-f3) := by
        rw [skipAdv_eq_firstV mem (b-f2) (c+1+f2+1), hcg3]
      have hlen3 : (vSyms mem (c+1+f2+1+f3+1) (b-1-f2-1-f3-1)).length = 4 * k - 3 := by
        rw [hVf3] at hlen2
        simp only [List.length_cons] at hlen2
        omega
      have hne3 : vSyms mem (c+1+f2+1+f3+1) (b-1-f2-1-f3-1) ≠ [] := by
        intro h
        rw [h] at hlen3
        simp at hlen3
        omega
      set f4 := firstV mem (c+1+f2+1+f3+1) (b-1-f2-1-f3-1) with hf4
      have hf4lt : f4 < b-1-f2-1-f3-1 :=
        firstV_lt_of_vSyms_ne mem (c+1+f2+1+f3+1) (b-1-f2-1-f3-1) hne3
      have hv4 : bdecode (rd mem ((c+1+f2+1+f3+1 + f4 : Nat) : Int)) ≠ 0 :=
        firstV_valid mem (b-1-f2-1-f3-1) (c+1+f2+1+f3+1) hf4lt
      have hVf4 : vSyms mem (c+1+f2+1+f3+1) (b-1-f2-1-f3-1) =
          rd mem ((c+1+f2+1+f3+1+f4 : Nat) : Int) ::
            vSyms mem (c+1+f2+1+f3+1+f4+1) (b-1-f2-1-f3-1-f4-1) := by
        rw [vSyms_firstV mem (c+1+f2+1+f3+1) (b-1-f2-1-f3-1), ← hf4]
        exact vSyms_cons mem (c+1+f2+1+f3+1+f4) (b-1-f2-1-f3-1-f4) (by omega) hv4
      have hcg4 : firstV mem (c+1+f2+1+f3+1) (b - f2 - f3) = f4 := by
        rw [hf4]
        exact firstV_congr mem (b-1-f2-1-f3-1) (c+1+f2+1+f3+1) ⟨f4, hf4lt, hv4⟩
          (b - f2 - f3) (by omega)
      have hs4 : skipAdv mem (c+1+f2+1+f3+1) (b-f2-f3) =
          (c+1+f2+1+f3+1+f4, b-f2-f3-f4) := by
        rw [skipAdv_eq_firstV mem (b-f2-f3) (c+1+f2+1+f3+1), hcg4]
      have hbeq : b-1-f2-1-f3-1-f4-1 = b-f2-f3-f4-4 := by omega
      rw [hbeq] at hVf4
      set f5 := firstV mem (c+1+f2+1+f3+1+f4+1) (b-f2-f3-f4-4) with hf5
      have hs5 : skipAdv mem (c+1+f2+1+f3+1+f4+1) (b-f2-f3-f4-4) =
          (c+1+f2+1+f3+1+f4+1+f5, b-f2-f3-f4-4-f5) := by
        rw [skipAdv_eq_firstV mem (b-f2-f3-f4-4) (c+1+f2+1+f3+1+f4+1), ← hf5]
      have hV4len : (vSyms mem (c+1+f2+1+f3+1+f4+1) (b-f2-f3-f4-4)).length = 4*k - 4 := by
        rw [hVf4] at hlen3
        simp only [List.length_cons] at hlen3
        omega
      have hvs5 : vSyms mem (c+1+f2+1+f3+1+f4+1+f5) (b-f2-f3-f4-4-f5) =
          vSyms mem (c+1+f2+1+f3+1+f4+1) (b-f2-f3-f4-4) := by
        rw [hf5]
        exact (vSyms_firstV mem (c+1+f2+1+f3+1+f4+1) (b-f2-f3-f4-4)).symm
      have hf5le : f5 ≤ b-f2-f3-f4-4 := by
        rw [hf5]
        exact firstV_le mem (b-f2-f3-f4-4) (c+1+f2+1+f3+1+f4+1)
      have hcv5 : b-f2-f3-f4-4-f5 ≠ 0 →
          bdecode (rd mem ((c+1+f2+1+f3+1+f4+1+f5 : Nat) : Int)) ≠ 0 := by
        intro hne
        have hf5lt : f5 < b-f2-f3-f4-4 := by omega
        have hval := firstV_valid mem (b-f2-f3-f4-4) (c+1+f2+1+f3+1+f4+1)
          (by rw [← hf5]; exact hf5lt)
        rw [← hf5] at hval
        exact hval
      have hdvd5 : 4 ∣ (vSyms mem (c+1+f2+1+f3+1+f4+1+f5) (b-f2-f3-f4-4-f5)).length := by
        rw [hvs5, hV4len]
        exact ⟨k - 1, by omega⟩
      have hw1 : gB1 tj (rd mem (c : Int)) (rd mem ((c+1+f2 : Nat) : Int)) =
          ((bdecode (rd mem (c : Int)) &&& 63) <<< 2 |||
            (bdecode (rd mem ((c+1+f2 : Nat) : Int)) &&& 63) >>> 4) % 256 := by
        rw [gB1, BITVAL_valid tj _ (rd_lt mem _) hcv2, BITVAL_valid tj _ (rd_lt mem _) hv2]
      have hw2 : gB2 tj (rd mem ((c+1+f2 : Nat) : Int)) (rd mem ((c+1+f2+1+f3 : Nat) : Int)) =
          ((bdecode (rd mem ((c+1+f2 : Nat) : Int)) &&& 63) <<< 4 |||
            (bdecode (rd mem ((c+1+f2+1+f3 : Nat) : Int)) &&& 63) >>> 2) % 256 := by
        rw [gB2, BITVAL_valid tj _ (rd_lt mem _) hv2, BITVAL_valid tj _ (rd_lt mem _) hv3]
      have hw3 : gB3 tj (rd mem ((c+1+f2+1+f3 : Nat) : Int))
          (rd mem ((c+1+f2+1+f3+1+f4 : Nat) : Int)) =
          ((bdecode (rd mem ((c+1+f2+1+f3 : Nat) : Int)) &&& 63) <<< 6 |||
            (bdecode (rd mem ((c+1+f2+1+f3+1+f4 : Nat) : Int)) &&& 63)) % 256 := by
        rw [gB3, BITVAL_valid tj _ (rd_lt mem _) hv3, BITVAL_valid tj _ (rd_lt mem _) hv4]
      have hIH := ih (b-f2-f3-f4-4-f5) (c+1+f2+1+f3+1+f4+1+f5) (o+3) (written+3)
        (ws ++ [(o, gB1 tj (rd mem (c : Int)) (rd mem ((c+1+f2 : Nat) : Int))),
                (o+1, gB2 tj (rd mem ((c+1+f2 : Nat) : Int))
                  (rd mem ((c+1+f2+1+f3 : Nat) : Int))),
                (o+2, gB3 tj (rd mem ((c+1+f2+1+f3 : Nat) : Int))
                  (rd mem ((c+1+f2+1+f3+1+f4 : Nat) : Int)))])
        (by omega) hdvd5 hcv5
      simp only [mainLoopF, skipAdv_eq_firstV mem b c,
        firstV_zero_of_valid mem c b (by omega) hcv2, Nat.add_zero, Nat.sub_zero,
        hs2, hs3, hs4, hs5]
      rw [if_neg (by omega : ¬ b < 4), if_neg (by omega : ¬ b = 0),
        if_neg (by omega : ¬ b - f2 = 0), if_neg (by omega : ¬ b - f2 - f3 = 0),
        if_neg (by omega : ¬ b - f2 - f3 - f4 = 0)]
      rw [hIH, hvs5]
      rw [hV, hVf2, hVf3, hVf4]
      simp only [decGroups, enumFrom, List.length_cons, hw1, hw2, hw3,
        List.append_assoc, List.cons_append, List.nil_append]
      rw [show (o : Int)+1+1 = o+2 from by ring, show (o : Int)+2+1 = o+3 from by ring]
      rw [show c+1+f2+1+f3+1+f4+1+f5 + (b-f2-f3-f4-4-f5) = c + b from by omega]
      have eo : o + 3 + 3 *
            (((vSyms mem (c+1+f2+1+f3+1+f4+1) (b-f2-f3-f4-4)).length : Int) / 4) =
          o + 3 * ((((vSyms mem (c+1+f2+1+f3+1+f4+1) (b-f2-f3-f4-4)).length
            + 1 + 1 + 1 + 1 : Nat) : Int) / 4) := by
        omega
      have ew : written + 3 +
            3 * (((vSyms mem (c+1+f2+1+f3+1+f4+1) (b-f2-f3-f4-4)).length : Int) / 4) =
          written + 3 * ((((vSyms mem (c+1+f2+1+f3+1+f4+1) (b-f2-f3-f4-4)).length
            + 1 + 1 + 1 + 1 : Nat) : Int) / 4) := by
        omega
      rw [eo, ew]

end FioBase64

namespace FioBase64

/-! ### Replaying write-event lists -/

theorem applyW_append : ∀ (ws1 : List (Int × Nat)) (m : Int → Nat)
    (ws2 : List (Int × Nat)),
    applyW m (ws1 ++ ws2) = applyW (applyW m ws1) ws2
  | [], m, ws2 => by simp [applyW]
  | (i, v) :: ws1, m, ws2 => by
    simp only [List.cons_append, applyW]
    exact applyW_append ws1 _ ws2

theorem applyW_notin (x : Int) : ∀ (ws : List (Int × Nat)) (m : Int → Nat),
    (∀ p ∈ ws, p.1 ≠ x) → applyW m ws x = m x
  | [], _, _ => rfl
  | (i, v) :: ws, m, h => by
    simp only [applyW]
    rw [applyW_notin x ws _ (fun p hp => h p (List.mem_cons_of_mem _ hp))]
    have hne : i ≠ x := h (i, v) (List.mem_cons_self _ _)
    simp [Ne.symm hne]

theorem enumFrom_offsets : ∀ (l : List Nat) (o : Int) (p : Int × Nat),
    p ∈ enumFrom o l → o ≤ p.1 ∧ p.1 < o + l.length
  | [], o, p, hp => by simp [enumFrom] at hp
  | x :: l, o, p, hp => by
    simp only [enumFrom, List.mem_cons] at hp
    rcases hp with rfl | hp
    · refine ⟨le_refl o, ?_⟩
      simp only [List.length_cons]
      push_cast
      omega
    · obtain ⟨h1, h2⟩ := enumFrom_offsets l (o+1) p hp
      simp only [List.length_cons]
      push_cast
      omega

theorem applyW_enumFrom : ∀ (l : List Nat) (o : Int) (m : Int → Nat) (j : Nat),
    j < l.length → applyW m (enumFrom o l) (o + (j : Int)) = l.getD j 0
  | [], _, _, j, hj => by simp at hj
  | x :: l, o, m, 0, hj => by
    simp only [enumFrom, applyW, Nat.cast_zero, add_zero]
    rw [applyW_notin o (enumFrom (o+1) l) _ (fun p hp => by
      have := enumFrom_offsets l (o+1) p hp
      omega)]
    simp
  | x :: l, o, m, j+1, hj => by
    simp only [enumFrom, applyW]
    rw [show o + ((j+1 : Nat) : Int) = (o + 1) + (j : Int) from by push_cast; ring,
      applyW_enumFrom l (o+1) _ j (by simpa using hj)]
    simp

/-! ### Reading a list memory through the decoder's window -/

theorem rd_listMem (l : List Nat) (hb : ∀ x ∈ l, x < 256) (j : Nat)
    (hj : j < l.length) : rd (listMem l) (j : Int) = l.getD j 0 :=
  listMem_read l hb j hj

theorem win_listMem (l : List Nat) (hb : ∀ x ∈ l, x < 256) :
    win (listMem l) 0 l.length = l := by
  apply List.ext_getElem
  · simp [win]
  · intro j h1 h2
    simp only [win, List.getElem_map, List.getElem_range]
    rw [show ((0 + j : Nat) : Int) = (j : Int) from by push_cast; ring,
      rd_listMem l hb j h2, List.getD_eq_getElem l 0 h2]

theorem vSyms_listMem_filter (l : List Nat) (hb : ∀ x ∈ l, x < 256) :
    vSyms (listMem l) 0 l.length = l.filter (fun x => bdecode x != 0) := by
  simp only [vSyms, win_listMem l hb]

theorem vSyms_listMem (l : List Nat) (hb : ∀ x ∈ l, x < 256)
    (hv : ∀ x ∈ l, bdecode x ≠ 0) : vSyms (listMem l) 0 l.length = l := by
  rw [vSyms_listMem_filter l hb, List.filter_eq_self.mpr]
  intro a ha
  simpa using hv a ha

/-! ### The backward table on alphabet characters -/

theorem bdecode_etbl_alpha (tbl : List Nat)
    (halpha : tbl = base64_encodes_original ∨ tbl = base64_encodes_url) :
    ∀ v, v < 64 → bdecode (etbl tbl v) &&& 63 = v := by
  rcases halpha with rfl | rfl
  · exact bdecode_etbl_original
  · exact bdecode_etbl_url

theorem etbl_valid_of_ne65_original : ∀ v, v < 64 →
    etbl base64_encodes_original v ≠ 65 →
    bdecode (etbl base64_encodes_original v) ≠ 0 := by decide

theorem etbl_valid_of_ne65_url : ∀ v, v < 64 →
    etbl base64_encodes_url v ≠ 65 →
    bdecode (etbl base64_encodes_url v) ≠ 0 := by decide

theorem etbl_valid_of_ne65 (tbl : List Nat)
    (halpha : tbl = base64_encodes_original ∨ tbl = base64_encodes_url) :
    ∀ v, v < 64 → etbl tbl v ≠ 65 → bdecode (etbl tbl v) ≠ 0 := by
  rcases halpha with rfl | rfl
  · exact etbl_valid_of_ne65_original
  · exact etbl_valid_of_ne65_url

/-- When an encoding contains no `'A'` (byte 65), each of its characters has
a nonzero backward-table entry, so the decoder skips none of them. -/
theorem encPure_all_valid (tbl : List Nat)
    (halpha : tbl = base64_encodes_original ∨ tbl = base64_encodes_url)
    (b : List Nat) (hb : ∀ x ∈ b, x < 256) (hA : 65 ∉ encPure tbl b) :
    ∀ y ∈ encPure tbl b, bdecode y ≠ 0 := by
  intro y hy
  rcases encPure_shape tbl b hb y hy with ⟨v, hv, rfl⟩ | rfl
  · exact etbl_valid_of_ne65 tbl halpha v hv (fun h => hA (h ▸ hy))
  · rw [bdecode_61]
    norm_num

/-! ### The main-loop byte recombination, as plain arithmetic -/

theorem dg1 (v1 v2 : Nat) (h1 : v1 < 64) (h2 : v2 < 64) :
    (v1 <<< 2 ||| v2 >>> 4) % 256 = 4 * v1 + v2 / 16 :=
  (by decide : ∀ v1 < 64, ∀ v2 < 64,
    (v1 <<< 2 ||| v2 >>> 4) % 256 = 4 * v1 + v2 / 16) v1 h1 v2 h2

theorem dg2 (v2 v3 : Nat) (h2 : v2 < 64) (h3 : v3 < 64) :
    (v2 <<< 4 ||| v3 >>> 2) % 256 = (16 * v2 + v3 / 4) % 256 :=
  (by decide : ∀ v2 < 64, ∀ v3 < 64,
    (v2 <<< 4 ||| v3 >>> 2) % 256 = (16 * v2 + v3 / 4) % 256) v2 h2 v3 h3

theorem dg3 (v3 v4 : Nat) (h3 : v3 < 64) (h4 : v4 < 64) :
    (v3 <<< 6 ||| v4) % 256 = (64 * v3 + v4) % 256 :=
  (by decide : ∀ v3 < 64, ∀ v4 < 64,
    (v3 <<< 6 ||| v4) % 256 = (64 * v3 + v4) % 256) v3 h3 v4 h4

end FioBase64

namespace FioBase64

/-- Decoding the encoder's output stream group-wise recovers the data bytes,
then `0, 1, 2` filler zero bytes according to `len mod 3 = 0, 2, 1` (the
padding symbols decode to value 0). -/
theorem decGroups_encPure (tbl : List Nat)
    (hdec : ∀ v, v < 64 → bdecode (etbl tbl v) &&& 63 = v) :
    ∀ b : List Nat, (∀ x ∈ b, x < 256) →
      decGroups (encPure tbl b) = b ++ List.replicate ((3 - b.length % 3) % 3) 0
  | [], _ => by simp [encPure, decGroups]
  | [t1], hb => by
    have h1 : t1 < 256 := hb t1 (by simp)
    simp only [encPure, decGroups]
    rw [hdec _ (sym1_lt t1), hdec _ (sym2p_lt t1 h1), bdecode_61,
      show (64 : Nat) &&& 63 = 0 from by decide,
      shr2_and t1 h1, and3 t1 h1, shl4 (t1 % 4) (by omega),
      dg1 _ _ (by omega) (by omega), dg2 _ _ (by omega) (by omega),
      dg3 _ _ (by omega) (by omega)]
    simp only [List.length_singleton, List.replicate, List.singleton_append,
      List.cons.injEq, and_true]
    omega
  | [t1, t2], hb => by
    have h1 : t1 < 256 := hb t1 (by simp)
    have h2 : t2 < 256 := hb t2 (by simp)
    simp only [encPure, decGroups]
    rw [hdec _ (sym1_lt t1), hdec _ (sym2_lt t1 t2 h1 h2), hdec _ (sym3p_lt t2 h2),
      bdecode_61, show (64 : Nat) &&& 63 = 0 from by decide,
      shr2_and t1 h1, and3 t1 h1, shr4_and t2 h2, shl4 (t1 % 4) (by omega),
      or_small4 (t1 % 4) (t2 / 16) (by omega) (by omega),
      and15 t2 h2, shl2 (t2 % 16) (by omega),
      dg1 _ _ (by omega) (by omega), dg2 _ _ (by omega) (by omega),
      dg3 _ _ (by omega) (by omega)]
    simp only [List.length_cons, List.length_singleton, List.replicate,
      List.singleton_append, List.cons_append, List.nil_append,
      List.cons.injEq, and_true]
    omega
  | t1 :: t2 :: t3 :: rest, hb => by
    have h1 : t1 < 256 := hb t1 (by simp)
    have h2 : t2 < 256 := hb t2 (by simp)
    have h3 : t3 < 256 := hb t3 (by simp)
    simp only [encPure, decGroups]
    rw [hdec _ (sym1_lt t1), hdec _ (sym2_lt t1 t2 h1 h2),
      hdec _ (sym3_lt t2 t3 h2 h3), hdec _ (sym4_lt t3),
      shr2_and t1 h1, and3 t1 h1, shr4_and t2 h2, shl4 (t1 % 4) (by omega),
      or_small4 (t1 % 4) (t2 / 16) (by omega) (by omega),
      and15 t2 h2, shr6_and t3 h3, shl2 (t2 % 16) (by omega),
      or_small2 (t2 % 16) (t3 / 64) (by omega) (by omega),
      and63 t3 h3,
      dg1 _ _ (by omega) (by omega), dg2 _ _ (by omega) (by omega),
      dg3 _ _ (by omega) (by omega),
      decGroups_encPure tbl hdec rest (fun x hx => hb x (by simp [hx]))]
    simp only [List.length_cons, List.cons_append, List.cons.injEq]
    refine ⟨by omega, by omega, by omega, ?_⟩
    rw [show (3 - (rest.length + 1 + 1 + 1) % 3) % 3 = (3 - rest.length % 3) % 3
      from by omega]

/-! ### The tail code on an exhausted window, and the decoder entry -/

/-- With nothing left at the tail, the only effect is the raw-byte padding
check at `encoded[-1]` / `encoded[-2]` and the terminating zero write. -/
theorem tailFin_zero (mem : Int → Nat) (tj : Nat → Nat) (c : Nat)
    (o written : Int) (ws : List (Int × Nat)) :
    tailFin mem tj c 0 o written ws =
      if rd mem ((c : Int) - 1) = 61 then
        if rd mem ((c : Int) - 2) = 61 then (ws ++ [(o - 2, 0)], written - 2)
        else (ws ++ [(o - 1, 0)], written - 1)
      else (ws ++ [(o, 0)], written) := by
  simp only [tailFin]
  split_ifs with h1 h2 <;> rfl

/-- A nonempty input whose first byte is a symbol character passes the entry
skip loop untouched. -/
theorem decode_valid_start (mem : Int → Nat) (tj : Nat → Nat) (len : Nat)
    (h0 : len ≠ 0) (hv : bdecode (rd mem 0) ≠ 0) :
    fio_base64_decode mem tj len = mainLoopF mem tj len 0 len 0 0 [] := by
  simp only [fio_base64_decode, if_neg h0]
  rw [topSkip_valid mem 0 len hv]

/-- Whole-decoder characterization on an input that starts with a symbol
character and holds a multiple of four symbol characters. -/
theorem decode_clean (mem : Int → Nat) (tj : Nat → Nat) (len : Nat)
    (h0 : len ≠ 0) (hv : bdecode (rd mem 0) ≠ 0)
    (hdvd : 4 ∣ (vSyms mem 0 len).length) :
    fio_base64_decode mem tj len =
      tailFin mem tj len 0 (3 * ((vSyms mem 0 len).length / 4))
        (3 * ((vSyms mem 0 len).length / 4))
        (enumFrom 0 (decGroups (vSyms mem 0 len))) := by
  rw [decode_valid_start mem tj len h0 hv,
    mainLoopF_clean mem tj len len 0 0 0 [] (le_refl len) hdvd (fun _ => hv)]
  simp only [Nat.zero_add, zero_add, List.nil_append]

end FioBase64

namespace FioBase64

/-! ### Claim C1: the round trip -/

/-- The decode of the full encoding, for data whose encoding contains no
`'A'` (byte 65): the write events and the returned count. -/
theorem decode_of_encPure (tbl : List Nat)
    (halpha : tbl = base64_encodes_original ∨ tbl = base64_encodes_url)
    (b : List Nat) (hb : ∀ x ∈ b, x < 256) (tj : Nat → Nat)
    (hb0 : b ≠ []) (hA : 65 ∉ encPure tbl b) :
    fio_base64_decode (listMem (encPure tbl b)) tj (encPure tbl b).length =
      (enumFrom 0 (decGroups (encPure tbl b)) ++ [((b.length : Int), 0)],
       (b.length : Int)) := by
  have htbl := etbl_alpha_lt tbl halpha
  have hElt : ∀ y ∈ encPure tbl b, y < 256 := encPure_lt256 tbl htbl b hb
  have hEval : ∀ y ∈ encPure tbl b, bdecode y ≠ 0 :=
    encPure_all_valid tbl halpha b hb hA
  have hVS : vSyms (listMem (encPure tbl b)) 0 (encPure tbl b).length =
      encPure tbl b := vSyms_listMem _ hElt hEval
  have hlen : (encPure tbl b).length = 4 * ((b.length + 2) / 3) :=
    encPure_length tbl b
  have hbl0 : b.length ≠ 0 := fun h => hb0 (List.length_eq_zero.mp h)
  have h0 : (encPure tbl b).length ≠ 0 := by omega
  have hv0 : bdecode (rd (listMem (encPure tbl b)) 0) ≠ 0 := by
    rw [show (0 : Int) = ((0 : Nat) : Int) from by norm_num,
      rd_listMem _ hElt 0 (by omega)]
    apply hEval
    rw [List.getD_eq_getElem _ 0 (by omega)]
    exact List.getElem_mem _
  have hdvd : 4 ∣ (vSyms (listMem (encPure tbl b)) 0 (encPure tbl b).length).length := by
    rw [hVS, hlen]
    exact ⟨_, rfl⟩
  have hdec := decode_clean (listMem (encPure tbl b)) tj (encPure tbl b).length
    h0 hv0 hdvd
  rw [hVS] at hdec
  obtain ⟨C, u1, u2, u3, hsp, hm0, hm1, hm2⟩ := encPure_tail_chars tbl b hb hb0
  have hCL : (encPure tbl b).length = C.length + 3 := by
    rw [hsp]
    simp
  have hg3 : (encPure tbl b).getD (C.length + 2) 0 = u3 := by
    rw [hsp, List.getD_append_right C _ 0 _ (by omega)]
    simp
  have hg2 : (encPure tbl b).getD (C.length + 1) 0 = u2 := by
    rw [hsp, List.getD_append_right C _ 0 _ (by omega)]
    simp
  have hrd1 : rd (listMem (encPure tbl b)) (((encPure tbl b).length : Int) - 1)
      = u3 := by
    rw [show (((encPure tbl b).length : Int) - 1) = ((C.length + 2 : Nat) : Int)
        from by omega,
      rd_listMem _ hElt _ (by omega), hg3]
  have hrd2 : rd (listMem (encPure tbl b)) (((encPure tbl b).length : Int) - 2)
      = u2 := by
    rw [show (((encPure tbl b).length : Int) - 2) = ((C.length + 1 : Nat) : Int)
        from by omega,
      rd_listMem _ hElt _ (by omega), hg2]
  rcases (by omega : b.length % 3 = 0 ∨ b.length % 3 = 1 ∨ b.length % 3 = 2)
    with hmd | hmd | hmd
  · obtain ⟨_, _, ⟨v3, hv3, e3⟩⟩ := hm0 hmd
    have hne : rd (listMem (encPure tbl b)) (((encPure tbl b).length : Int) - 1)
        ≠ 61 := by
      rw [hrd1, e3]
      exact etbl_alpha_ne_61 tbl halpha v3 hv3
    rw [hdec, tailFin_zero, if_neg hne,
      show (3 : Int) * (((encPure tbl b).length : Int) / 4) = (b.length : Int)
        from by omega]
  · obtain ⟨_, e2, e3⟩ := hm1 hmd
    have h61a : rd (listMem (encPure tbl b)) (((encPure tbl b).length : Int) - 1)
        = 61 := by rw [hrd1, e3]
    have h61b : rd (listMem (encPure tbl b)) (((encPure tbl b).length : Int) - 2)
        = 61 := by rw [hrd2, e2]
    rw [hdec, tailFin_zero, if_pos h61a, if_pos h61b,
      show (3 : Int) * (((encPure tbl b).length : Int) / 4) - 2 = (b.length : Int)
        from by omega]
  · obtain ⟨_, ⟨v2, hv2, e2⟩, e3⟩ := hm2 hmd
    have h61a : rd (listMem (encPure tbl b)) (((encPure tbl b).length : Int) - 1)
        = 61 := by rw [hrd1, e3]
    have hne : rd (listMem (encPure tbl b)) (((encPure tbl b).length : Int) - 2)
        ≠ 61 := by
      rw [hrd2, e2]
      exact etbl_alpha_ne_61 tbl halpha v2 hv2
    rw [hdec, tailFin_zero, if_pos h61a, if_neg hne,
      show (3 : Int) * (((encPure tbl b).length : Int) / 4) - 1 = (b.length : Int)
        from by omega]

end FioBase64

namespace FioBase64

/-- C1 counterexample: encoding the single byte 0 with the standard alphabet
yields `"AAAA"`... in fact `"AA=="`, whose leading `'A'` (byte 65, table value
0) makes the decoder's entry skip loop consume the whole input, so the decode
of the encoding returns 0, not `len(b) = 1`: the unconditional round trip
fails. -/
theorem c1_counterexample :
    (fio_base64_decode
        (listMem (fio_base64_encodeBytes base64_encodes_original [0]))
        (fun _ => 0)
        (fio_base64_encodeBytes base64_encodes_original [0]).length).2
      ≠ (([0] : List Nat).length : Int) := by decide

/-- C1 (amended): for every byte sequence whose encoding contains no byte 65
(`'A'`), decoding the encoder's output returns exactly `len(b)` and the
output buffer holds the bytes of `b` below that count, for both alphabets
and regardless of the junk the out-of-bounds `BITVAL` reads would see. -/
theorem c1_roundtrip_no_A (tbl : List Nat)
    (halpha : tbl = base64_encodes_original ∨ tbl = base64_encodes_url)
    (b : List Nat) (hb : ∀ x ∈ b, x < 256) (tj : Nat → Nat)
    (hA : 65 ∉ fio_base64_encodeBytes tbl b) :
    (fio_base64_decode (listMem (fio_base64_encodeBytes tbl b)) tj
        (fio_base64_encodeBytes tbl b).length).2 = (b.length : Int) ∧
    ∀ (m0 : Int → Nat) (j : Nat), j < b.length →
      applyW m0 (fio_base64_decode (listMem (fio_base64_encodeBytes tbl b)) tj
        (fio_base64_encodeBytes tbl b).length).1 (j : Int) = b.getD j 0 := by
  have htbl := etbl_alpha_lt tbl halpha
  have henc := encodeBytes_eq_encPure tbl htbl b hb
  rw [henc] at hA ⊢
  by_cases hb0 : b = []
  · subst hb0
    refine ⟨by simp [encPure, fio_base64_decode], ?_⟩
    intro m0 j hj
    simp at hj
  · have hr := decode_of_encPure tbl halpha b hb tj hb0 hA
    refine ⟨by rw [hr], ?_⟩
    intro m0 j hj
    rw [hr]
    show applyW m0 (enumFrom 0 (decGroups (encPure tbl b))
      ++ [((b.length : Int), 0)]) (j : Int) = b.getD j 0
    rw [applyW_append, applyW_notin _ _ _ (fun q hq => by
      simp only [List.mem_singleton] at hq
      subst hq
      show (b.length : Int) ≠ (j : Int)
      omega)]
    rw [decGroups_encPure tbl (bdecode_etbl_alpha tbl halpha) b hb,
      show ((j : Nat) : Int) = (0 : Int) + (j : Int) from by ring,
      applyW_enumFrom _ 0 m0 j (by
        simp only [List.length_append, List.length_replicate]
        omega)]
    exact List.getD_append b _ 0 j hj

/-- C1 witness: the bytes of `"foo"` (encoding `"Zm9v"`, no `'A'`) round-trip
with returned count 3. -/
theorem c1_roundtrip_no_A_witness :
    (65 ∉ fio_base64_encodeBytes base64_encodes_original [102, 111, 111]) ∧
    (fio_base64_decode
        (listMem (fio_base64_encodeBytes base64_encodes_original [102, 111, 111]))
        (fun _ => 0)
        (fio_base64_encodeBytes base64_encodes_original [102, 111, 111]).length).2
      = (3 : Int) :=
  ⟨by decide, (c1_roundtrip_no_A base64_encodes_original (Or.inl rfl)
    [102, 111, 111] (by decide) (fun _ => 0) (by decide)).1⟩

end FioBase64

namespace FioBase64

/-! ### Claims C2 and C4: decoder write extent and the missing terminator -/

/-- C2: decoding the 3-byte input `"abc"` (no padding, `len % 4 = 3`) takes
the `switch` case 3 of the tail code and writes four bytes — offsets 0, 1, 2
and the terminating zero at offset 3 — into the output buffer, although
`floor(3/4)*3 + 3 = 3`: the write at offset 3 is beyond the documented
buffer bound, so that bound is not sufficient. -/
theorem c2_buffer_overflow :
    fio_base64_decode (listMem [97, 98, 99]) (fun _ => 0) 3 =
      ([(0, 104), (1, 183), (2, 0), (3, 0)], 3) := by decide

/-- C4: decoding `"Z   "` exhausts the input inside the group collection
(after the first symbol), takes the `oops1` early-return path, and returns 1
having performed exactly one write — the data byte at offset 0 — with no
zero byte written at offset 1 (or anywhere): the terminating zero is not
appended on the early-exhaustion paths. -/
theorem c4_missing_nul :
    fio_base64_decode (listMem [90, 32, 32, 32]) (fun _ => 0) 4 =
      ([(0, 25)], 1) := by decide

/-! ### Claim C6: degenerate inputs -/

/-- Memory whose buffer byte is the invalid byte 32, with a raw `'='` (61)
sitting just before the buffer. -/
def c6mem : Int → Nat := fun i => if i = -1 then 61 else 32

/-- C6 counterexample: on an entirely-invalid 1-byte input the tail code
still runs its padding check on the raw byte `encoded[-1]` before the
buffer; with a `'='` there, decode returns -1 (not 0) and writes its lone
zero byte at output index -1 (not 0). -/
theorem c6_counterexample :
    fio_base64_decode c6mem (fun _ => 0) 1 = ([(-1, 0)], -1) := by decide

/-- C6 (amended): empty input always yields count 0 with the lone zero write
at index 0; an entirely-invalid input does too, provided the raw byte before
the buffer is not `'='` (the padding check reads `encoded[-1]`, and
`encoded[-2]` when that byte is `'='`). -/
theorem c6_amended_degenerate (mem : Int → Nat) (tj : Nat → Nat) (len : Nat) :
    fio_base64_decode mem tj 0 = ([(0, 0)], 0) ∧
    (len ≠ 0 → bdecode (rd mem 0) = 0 → rd mem (-1) ≠ 61 →
      fio_base64_decode mem tj len = ([(0, 0)], 0)) := by
  refine ⟨by simp [fio_base64_decode], ?_⟩
  intro h0 hinv h61
  obtain ⟨L, rfl⟩ : ∃ L, len = L + 1 := ⟨len - 1, by omega⟩
  simp only [fio_base64_decode, if_neg h0]
  rw [topSkip_invalid mem 0 (L+1) hinv]
  simp only [mainLoopF]
  rw [if_pos (by norm_num : (0:Nat) < 4), tailFin_zero,
    show ((0 : Nat) : Int) - 1 = (-1 : Int) from by norm_num, if_neg h61]
  simp

/-- C6 amended witness: the all-invalid input `[32]` laid out at offset 0 of
an otherwise zeroed memory decodes to count 0 with the zero write at 0. -/
theorem c6_amended_degenerate_witness :
    ((1 : Nat) ≠ 0 ∧ bdecode (rd (listMem [32]) 0) = 0 ∧
      rd (listMem [32]) (-1) ≠ 61) ∧
    fio_base64_decode (listMem [32]) (fun _ => 0) 1 = ([(0, 0)], 0) :=
  ⟨⟨by decide, by decide, by decide⟩,
    (c6_amended_degenerate (listMem [32]) (fun _ => 0) 1).2
      (by decide) (by decide) (by decide)⟩

/-! ### Claim C9: the skip condition and symbol index 0 -/

/-- C9 counterexample: the backward table does not map `'a'` (byte 97) to 0 —
it maps it to 26 — so the claimed `'A'`/`'a'`-to-0 conflation holds only for
`'A'`. -/
theorem c9_counterexample : bdecode 97 = 26 ∧ (26 : Nat) ≠ 0 := by decide

/-- C9 (amended): the backward table maps `'A'` (65) to 0, identically to
unknown bytes (while `'a'` maps to 26), and the skip condition therefore
discards a legitimate leading `'A'`: `"AAAA"`, the standard encoding of
three zero bytes, decodes to zero bytes — the entry skip loop consumes the
whole input. -/
theorem c9_skip_conflation_A :
    bdecode 65 = 0 ∧ bdecode 97 = 26 ∧
    fio_base64_decode (listMem [65, 65, 65, 65]) (fun _ => 0) 4 =
      ([(0, 0)], 0) := by decide

/-! ### Claim C10: a leading invalid byte wipes out the whole input -/

/-- C10: when the first byte of a nonempty input has backward-table value 0,
the entry skip loop runs the remaining length to zero without advancing the
cursor, so no input byte is decoded: the only write is the lone terminating
zero byte, and the returned count is at most 0 — no matter what valid
Base64 text follows. -/
theorem c10_leading_invalid_skips_all (mem : Int → Nat) (tj : Nat → Nat)
    (len : Nat) (h0 : len ≠ 0) (hinv : bdecode (rd mem 0) = 0) :
    (∃ p : Int, (fio_base64_decode mem tj len).1 = [(p, 0)]) ∧
    (fio_base64_decode mem tj len).2 ≤ 0 := by
  obtain ⟨L, rfl⟩ : ∃ L, len = L + 1 := ⟨len - 1, by omega⟩
  simp only [fio_base64_decode, if_neg h0]
  rw [topSkip_invalid mem 0 (L+1) hinv]
  simp only [mainLoopF]
  rw [if_pos (by norm_num : (0:Nat) < 4), tailFin_zero]
  split_ifs with h1 h2
  · exact ⟨⟨0 - 2, by simp⟩, by norm_num⟩
  · exact ⟨⟨0 - 1, by simp⟩, by norm_num⟩
  · exact ⟨⟨0, by simp⟩, by norm_num⟩

/-- C10 witness: `" Zm9v"` (leading space) decodes to nothing but the zero
write, although a full valid group follows the space. -/
theorem c10_leading_invalid_skips_all_witness :
    ((5 : Nat) ≠ 0 ∧ bdecode (rd (listMem [32, 90, 109, 57, 118]) 0) = 0) ∧
    ((∃ p : Int, (fio_base64_decode (listMem [32, 90, 109, 57, 118])
        (fun _ => 0) 5).1 = [(p, 0)]) ∧
      (fio_base64_decode (listMem [32, 90, 109, 57, 118]) (fun _ => 0) 5).2 ≤ 0) :=
  ⟨⟨by decide, by decide⟩,
    c10_leading_invalid_skips_all (listMem [32, 90, 109, 57, 118])
      (fun _ => 0) 5 (by decide) (by decide)⟩

end FioBase64

namespace FioBase64

/-! ### Claim C5: inserting skippable bytes -/

/-- `Ins l l'`: `l'` is `l` with bytes of backward-table value 0 (the bytes
the skip loops discard) inserted at arbitrary positions. -/
inductive Ins : List Nat → List Nat → Prop
  | nil : Ins [] []
  | keep (x : Nat) {l l' : List Nat} : Ins l l' → Ins (x :: l) (x :: l')
  | ins (x : Nat) {l l' : List Nat} (hx : x < 256) (hz : bdecode x = 0) :
      Ins l l' → Ins l (x :: l')

theorem Ins_mem {l l' : List Nat} (h : Ins l l') :
    ∀ x ∈ l', x ∈ l ∨ (x < 256 ∧ bdecode x = 0) := by
  induction h with
  | nil =>
    intro x hx
    simp at hx
  | keep y hrec ih =>
    intro x hx
    rcases List.mem_cons.mp hx with rfl | hx
    · exact Or.inl (List.mem_cons_self _ _)
    · rcases ih x hx with h1 | h2
      · exact Or.inl (List.mem_cons_of_mem _ h1)
      · exact Or.inr h2
  | ins y hy hz hrec ih =>
    intro x hx
    rcases List.mem_cons.mp hx with rfl | hx
    · exact Or.inr ⟨hy, hz⟩
    · exact ih x hx

theorem Ins_filter {l l' : List Nat} (h : Ins l l')
    (hv : ∀ x ∈ l, bdecode x ≠ 0) :
    l'.filter (fun x => bdecode x != 0) = l := by
  induction h with
  | nil => rfl
  | keep y hrec ih =>
    have hy : bdecode y ≠ 0 := hv y (List.mem_cons_self _ _)
    rw [List.filter_cons_of_pos (by simpa using hy),
      ih (fun x hx => hv x (List.mem_cons_of_mem _ hx))]
  | ins y hy hz hrec ih =>
    rw [List.filter_cons_of_neg (by simp [hz]), ih hv]

theorem getD_last_mem (l : List Nat) (hne : l ≠ []) :
    l.getD (l.length - 1) 0 ∈ l := by
  have hl : 0 < l.length := List.length_pos.mpr hne
  rw [List.getD_eq_getElem l 0 (by omega)]
  exact List.getElem_mem _

end FioBase64

namespace FioBase64

theorem rd_listMem_at (L : List Nat) (hb : ∀ x ∈ L, x < 256) (k : Nat)
    (hk : k < L.length) (i : Int) (hi : i = (k : Int)) :
    rd (listMem L) i = L.getD k 0 := by
  rw [hi]
  exact rd_listMem L hb k hk

/-- C5 counterexample: the comma (byte 44) belongs to neither alphabet and is
not `'='`, yet the backward table maps it to 63, so the decoder consumes it
as a symbol instead of skipping it: inserting it into `"Zm9v"` changes the
returned count. -/
theorem c5_counterexample :
    (44 ∉ base64_encodes_original ∧ 44 ∉ base64_encodes_url ∧ (44 : Nat) ≠ 61) ∧
    (fio_base64_decode (listMem [90, 44, 109, 57, 118]) (fun _ => 0) 5).2 ≠
      (fio_base64_decode (listMem [90, 109, 57, 118]) (fun _ => 0) 4).2 := by
  decide

/-- C5 (amended): inserting bytes of backward-table value 0 (the bytes the
skip loops really discard) into the body of a well-formed encoded string —
after the leading symbol and before the trailing padding — changes neither
the write events nor the returned count of the decode. -/
theorem c5_skip_insertion (tj : Nat → Nat) (h : Nat) (u u' pad : List Nat)
    (hins : Ins u u')
    (hlt : ∀ x ∈ h :: u, x < 256)
    (hval : ∀ x ∈ h :: u, bdecode x ≠ 0)
    (h61 : 61 ∉ h :: u)
    (hpad : pad = [] ∨ pad = [61] ∨ pad = [61, 61])
    (hdvd : 4 ∣ ((h :: u) ++ pad).length) :
    fio_base64_decode (listMem ((h :: u') ++ pad)) tj ((h :: u') ++ pad).length =
      fio_base64_decode (listMem ((h :: u) ++ pad)) tj ((h :: u) ++ pad).length := by
  have hpadlt : ∀ x ∈ pad, x < 256 := by
    intro x hx
    rcases hpad with rfl | rfl | rfl
    · simp at hx
    · simp at hx
      omega
    · simp at hx
      omega
  have hpadval : ∀ x ∈ pad, bdecode x ≠ 0 := by
    intro x hx
    have hx61 : x = 61 := by
      rcases hpad with rfl | rfl | rfl
      · simp at hx
      · simpa using hx
      · rcases (by simpa using hx : x = 61 ∨ x = 61) with he | he <;> exact he
    subst hx61
    rw [bdecode_61]
    norm_num
  have hslt : ∀ x ∈ (h :: u) ++ pad, x < 256 := by
    intro x hx
    rcases List.mem_append.mp hx with hx | hx
    · exact hlt x hx
    · exact hpadlt x hx
  have hsval : ∀ x ∈ (h :: u) ++ pad, bdecode x ≠ 0 := by
    intro x hx
    rcases List.mem_append.mp hx with hx | hx
    · exact hval x hx
    · exact hpadval x hx
  have hlt' : ∀ x ∈ h :: u', x < 256 := by
    intro x hx
    rcases List.mem_cons.mp hx with rfl | hx
    · exact hlt x (List.mem_cons_self _ _)
    · rcases Ins_mem hins x hx with h1 | h2
      · exact hlt x (List.mem_cons_of_mem _ h1)
      · exact h2.1
  have hslt' : ∀ x ∈ (h :: u') ++ pad, x < 256 := by
    intro x hx
    rcases List.mem_append.mp hx with hx | hx
    · exact hlt' x hx
    · exact hpadlt x hx
  have hfu : u'.filter (fun x => bdecode x != 0) = u :=
    Ins_filter hins (fun x hx => hval x (List.mem_cons_of_mem _ hx))
  have hVS : vSyms (listMem ((h :: u) ++ pad)) 0 ((h :: u) ++ pad).length =
      (h :: u) ++ pad :=
    vSyms_listMem _ hslt hsval
  have hVS' : vSyms (listMem ((h :: u') ++ pad)) 0 ((h :: u') ++ pad).length =
      (h :: u) ++ pad := by
    rw [vSyms_listMem_filter _ hslt', List.filter_append,
      List.filter_cons_of_pos (by simpa using hval h (List.mem_cons_self _ _)),
      hfu, List.filter_eq_self.mpr (by intro a ha; simpa using hpadval a ha)]
  have hv0 : bdecode (rd (listMem ((h :: u) ++ pad)) 0) ≠ 0 := by
    rw [rd_listMem_at _ hslt 0 (by simp) 0 (by norm_num)]
    simpa using hval h (List.mem_cons_self _ _)
  have hv0' : bdecode (rd (listMem ((h :: u') ++ pad)) 0) ≠ 0 := by
    rw [rd_listMem_at _ hslt' 0 (by simp) 0 (by norm_num)]
    simpa using hval h (List.mem_cons_self _ _)
  have hlen0 : ((h :: u) ++ pad).length ≠ 0 := by simp
  have hlen0' : ((h :: u') ++ pad).length ≠ 0 := by simp
  have hd := decode_clean (listMem ((h :: u) ++ pad)) tj ((h :: u) ++ pad).length
    hlen0 hv0 (by rw [hVS]; exact hdvd)
  have hd' := decode_clean (listMem ((h :: u') ++ pad)) tj ((h :: u') ++ pad).length
    hlen0' hv0' (by rw [hVS']; exact hdvd)
  rw [hVS] at hd
  rw [hVS'] at hd'
  have hlast : (h :: u).getD ((h :: u).length - 1) 0 ≠ 61 :=
    fun e => h61 (e ▸ getD_last_mem _ (by simp))
  have hlast' : (h :: u').getD ((h :: u').length - 1) 0 ≠ 61 := by
    intro e
    have hm := getD_last_mem (h :: u') (by simp)
    rw [e] at hm
    rcases List.mem_cons.mp hm with h1 | h1
    · apply h61
      rw [h1]
      exact List.mem_cons_self _ _
    · rcases Ins_mem hins 61 h1 with h2 | h2
      · exact h61 (List.mem_cons_of_mem _ h2)
      · have h3 := h2.2
        rw [bdecode_61] at h3
        omega
  rcases hpad with rfl | rfl | rfl
  · simp only [List.append_nil] at hd hd' ⊢
    have ha : rd (listMem (h :: u)) (((h :: u).length : Int) - 1) =
        (h :: u).getD ((h :: u).length - 1) 0 :=
      rd_listMem_at _ (by simpa using hlt) _
        (by simp only [List.length_cons]; omega) _
        (by simp only [List.length_cons]; omega)
    have ha' : rd (listMem (h :: u')) (((h :: u').length : Int) - 1) =
        (h :: u').getD ((h :: u').length - 1) 0 :=
      rd_listMem_at _ (by simpa using hlt') _
        (by simp only [List.length_cons]; omega) _
        (by simp only [List.length_cons]; omega)
    rw [hd, hd', tailFin_zero, tailFin_zero,
      if_neg (by rw [ha']; exact hlast'), if_neg (by rw [ha]; exact hlast)]
  · have hb1 : rd (listMem ((h :: u) ++ [61]))
        ((((h :: u) ++ [61]).length : Int) - 1) = 61 := by
      rw [rd_listMem_at _ hslt (h :: u).length
        (by simp) _
        (by simp only [List.length_append, List.length_cons, List.length_nil]; omega),
        List.getD_append_right _ _ _ _ (le_refl _)]
      simp
    have hb2 : rd (listMem ((h :: u) ++ [61]))
        ((((h :: u) ++ [61]).length : Int) - 2) =
        (h :: u).getD ((h :: u).length - 1) 0 := by
      rw [rd_listMem_at _ hslt ((h :: u).length - 1)
        (by simp only [List.length_append, List.length_cons, List.length_nil]; omega) _
        (by simp only [List.length_append, List.length_cons, List.length_nil]; omega),
        List.getD_append _ _ _ _ (by simp only [List.length_cons]; omega)]
    have hb1' : rd (listMem ((h :: u') ++ [61]))
        ((((h :: u') ++ [61]).length : Int) - 1) = 61 := by
      rw [rd_listMem_at _ hslt' (h :: u').length
        (by simp) _
        (by simp only [List.length_append, List.length_cons, List.length_nil]; omega),
        List.getD_append_right _ _ _ _ (le_refl _)]
      simp
    have hb2' : rd (listMem ((h :: u') ++ [61]))
        ((((h :: u') ++ [61]).length : Int) - 2) =
        (h :: u').getD ((h :: u').length - 1) 0 := by
      rw [rd_listMem_at _ hslt' ((h :: u').length - 1)
        (by simp only [List.length_append, List.length_cons, List.length_nil]; omega) _
        (by simp only [List.length_append, List.length_cons, List.length_nil]; omega),
        List.getD_append _ _ _ _ (by simp only [List.length_cons]; omega)]
    rw [hd, hd', tailFin_zero, tailFin_zero,
      if_pos hb1', if_neg (by rw [hb2']; exact hlast'),
      if_pos hb1, if_neg (by rw [hb2]; exact hlast)]
  · have hb1 : rd (listMem ((h :: u) ++ [61, 61]))
        ((((h :: u) ++ [61, 61]).length : Int) - 1) = 61 := by
      rw [rd_listMem_at _ hslt ((h :: u).length + 1)
        (by simp) _
        (by simp only [List.length_append, List.length_cons, List.length_nil]; omega),
        List.getD_append_right _ _ _ _ (by omega)]
      simp
    have hb2 : rd (listMem ((h :: u) ++ [61, 61]))
        ((((h :: u) ++ [61, 61]).length : Int) - 2) = 61 := by
      rw [rd_listMem_at _ hslt (h :: u).length
        (by simp) _
        (by simp only [List.length_append, List.length_cons, List.length_nil]; omega),
        List.getD_append_right _ _ _ _ (le_refl _)]
      simp
    have hb1' : rd (listMem ((h :: u') ++ [61, 61]))
        ((((h :: u') ++ [61, 61]).length : Int) - 1) = 61 := by
      rw [rd_listMem_at _ hslt' ((h :: u').length + 1)
        (by simp) _
        (by simp only [List.length_append, List.length_cons, List.length_nil]; omega),
        List.getD_append_right _ _ _ _ (by omega)]
      simp
    have hb2' : rd (listMem ((h :: u') ++ [61, 61]))
        ((((h :: u') ++ [61, 61]).length : Int) - 2) = 61 := by
      rw [rd_listMem_at _ hslt' (h :: u').length
        (by simp) _
        (by simp only [List.length_append, List.length_cons, List.length_nil]; omega),
        List.getD_append_right _ _ _ _ (le_refl _)]
      simp
    rw [hd, hd', tailFin_zero, tailFin_zero,
      if_pos hb1', if_pos hb2', if_pos hb1, if_pos hb2]

/-- C5 witness: inserting a space (byte 32, table value 0) into the body of
`"Zm9v"` leaves the decode unchanged. -/
theorem c5_skip_insertion_witness :
    Ins [109, 57, 118] [109, 57, 32, 118] ∧
    fio_base64_decode (listMem ((90 :: [109, 57, 32, 118]) ++ []))
        (fun _ => 0) ((90 :: [109, 57, 32, 118]) ++ []).length =
      fio_base64_decode (listMem ((90 :: [109, 57, 118]) ++ []))
        (fun _ => 0) ((90 :: [109, 57, 118]) ++ []).length := by
  have hins : Ins [109, 57, 118] [109, 57, 32, 118] :=
    Ins.keep 109 (Ins.keep 57 (Ins.ins 32 (by decide) (by decide)
      (Ins.keep 118 Ins.nil)))
  exact ⟨hins, c5_skip_insertion (fun _ => 0) 90 [109, 57, 118] [109, 57, 32, 118]
    [] hins (by decide) (by decide) (by decide) (Or.inl rfl) (by decide)⟩

end FioBase64
